import Mathlib

/-!
Shallow embedding of the pgbdd proof-generating BDD SAT solver
(`src/solver/bdd.py`, `src/solver/pgbdd.py`, `src/solver/stream.py`)
together with theorems settling the specification claims.

Python dictionaries are embedded as association lists in insertion order
(new keys are appended at the end, as CPython dicts iterate in insertion
order).  Python machine-unbounded integers are embedded as `Int`, byte
values as `Nat`.
-/

namespace PGBDD

/-- Modelled from the spec: `resolver.py` is imported by `bdd.py` and
`pgbdd.py` but is not among the sources.  Per the spec (§9 Design notes)
the tautology sentinel is "a sentinel integer distinct from any real
clause id ... the reference uses a large integer constant". -/
def tautologyId : Int := 1000 * 1000 * 1000

/-- Result of clause cleaning: either one of the integer sentinels
(`tautologyId` for a tautological clause, `-tautologyId` for the empty
clause) or the cleaned literal list.  Python returns an `int` or a `list`
here; the embedding separates the two shapes. -/
inductive CleanedClause where
  | sentinel (s : Int)
  | lits (l : List Int)
deriving DecidableEq

/-- Removes duplicate literals keeping first occurrences. -/
def dedupFirst (seen : List Int) : List Int → List Int
  | [] => []
  | x :: xs => if x ∈ seen then dedupFirst seen xs else x :: dedupFirst (x :: seen) xs

/-- Modelled from the spec: `resolver.cleanClause` is not among the
sources.  Spec §4.A: "A utility removes duplicate literals from a clause
and returns the tautology sentinel if the clause contains a literal and
its negation."  Per §3 the leaf node ids are the sentinels `±tautologyId`
and they occur as literals of the ITE-axiom clauses, and the caller
`Prover.createClause` distinguishes the returns `tautologyId` (clause
already true) and `-tautologyId` (clause empty): so the `tautologyId`
literal makes the clause true, the `-tautologyId` literal is dropped as
false, and an empty result yields `-tautologyId`. -/
def cleanClause (literalList : List Int) : CleanedClause :=
  if literalList.any (fun l => l = tautologyId) then .sentinel tautologyId
  else if literalList.any (fun l => literalList.any (fun l2 => l2 = -l)) then
    .sentinel tautologyId
  else
    let kept := dedupFirst [] (literalList.filter (fun l => l ≠ -tautologyId))
    if kept = [] then .sentinel (-tautologyId) else .lits kept

/-! ### stream.py: binary proof codec -/

/-- `CompressArray.append`, inner loop (stream.py:59-65): emit the
seven-bit groups of `u`, least significant first, continuation bit `0x80`
on all but the last (`u & 0x7F` is `u % 128`, `u >> 7` is `u / 128`). -/
def encodeNat (u : Nat) : List Nat :=
  if u ≥ 128 then (u % 128 + 128) :: encodeNat (u / 128) else [u]
termination_by u
decreasing_by exact Nat.div_lt_self (by omega) (by omega)

/-- `CompressArray.append` (stream.py:59-60): the zigzag step
`u = 2*x if x >= 0 else 2*(-x) + 1`. -/
def zigzag (x : Int) : Nat :=
  if x ≥ 0 then (2 * x).toNat else (2 * (-x) + 1).toNat

/-- `CompressArray.__init__` (stream.py:54-57): bytes of the whole list,
appending each element in turn. -/
def compressBytes (ilist : List Int) : List Nat :=
  ilist.flatMap (fun x => encodeNat (zigzag x))

/-- The value decoded from a completed group (stream.py:75):
`x = u//2 if u & 0x1 == 0 else -u//2`.  Python's unary minus binds
tighter than `//`, so `-u//2` is the floor division `(-u) // 2`,
embedded as `Int.fdiv`. -/
def decodeOne (v : Nat) : Int :=
  if v % 2 = 0 then ((v : Int) / 2) else Int.fdiv (-(v : Int)) 2

/-- `CompressArray.toList` loop (stream.py:67-81), carrying the running
`weight` and accumulator `u` (`ab << weight` is `ab * 2 ^ weight`). -/
def decodeAux : List Nat → Nat → Nat → List Int
  | [], _, _ => []
  | b :: rest, weight, u =>
    let ab := b % 128
    let u2 := u + ab * 2 ^ weight
    if b < 128 then decodeOne u2 :: decodeAux rest 0 0
    else decodeAux rest (weight + 7) u2

/-- `CompressArray.toList` (stream.py:67-81). -/
def toListBytes (bs : List Nat) : List Int := decodeAux bs 0 0

/-! ### pgbdd.py: the Prover -/

/-- One record written to the proof output stream: a text line or a chunk
of bytes. -/
inductive FileRecord where
  | text (s : String)
  | binary (bs : List Nat)
deriving DecidableEq

/-- Python dict assignment `d[k] = v`: replace in place if the key is
present, else append at the end (CPython dicts keep insertion order). -/
def dictSet {κ β : Type} [DecidableEq κ] : List (κ × β) → κ → β → List (κ × β)
  | [], k, v => [(k, v)]
  | (k', v') :: rest, k, v =>
    if k' = k then (k, v) :: rest else (k', v') :: dictSet rest k v

/-- Python dict lookup: the unique binding of the key (first match). -/
def dictFind {κ β : Type} [DecidableEq κ] : List (κ × β) → κ → Option β
  | [], _ => none
  | (k', v') :: rest, k => if k' = k then some v' else dictFind rest k

/-- `Prover` state (pgbdd.py:273-302).  The output file is embedded as
the list of records written so far; the stderr writer is not modelled. -/
structure Prover where
  inputClauseCount : Int
  clauseCount : Int
  proofCount : Int
  verbLevel : Nat
  doLrat : Bool
  doBinary : Bool
  clauseDict : List (Int × List Int)
  file : List FileRecord
deriving DecidableEq

/-- `Prover.__init__` (pgbdd.py:286-302). -/
def mkProver (verbLevel : Nat) (doLrat doBinary : Bool) : Prover :=
  { inputClauseCount := 0, clauseCount := 0, proofCount := 0,
    verbLevel := verbLevel, doLrat := doLrat, doBinary := doBinary,
    clauseDict := [], file := [] }

/-- `Prover.comment` (pgbdd.py:310-312). -/
def proverComment (p : Prover) (comment : Option String) : Prover :=
  match comment with
  | none => p
  | some s =>
    if p.verbLevel > 1 ∧ ¬ p.doBinary then
      { p with file := p.file ++ [.text ("c " ++ s ++ "\n")] }
    else p

/-- The text rendering `" ".join(str(i) for i in ilist)`. -/
def joinInts (ilist : List Int) : String :=
  String.intercalate " " (ilist.map toString)

/-- The literal list actually recorded for a non-tautological clause
(pgbdd.py:316-320): the cleaned list, or `[]` when cleaning returned the
`-tautologyId` sentinel (the empty clause). -/
def cleanedLits (result : List Int) : List Int :=
  match cleanClause result with
  | .sentinel _ => []
  | .lits l => l

/-- `Prover.createClause` (pgbdd.py:314-342).  Returns the assigned
clause id (or the tautology sentinel) and the updated prover. -/
def createClause (p : Prover) (result : List Int) (antecedent : List Int)
    (comment : Option String) (isInput : Bool) : Int × Prover :=
  let p1 := proverComment p comment
  let cleaned := cleanClause result
  if cleaned = .sentinel tautologyId then (tautologyId, p1)
  else
    let res : List Int := cleanedLits result
    let cc := p1.clauseCount + 1
    let ant := if p1.doLrat then antecedent else antecedent.insertionSort (· ≤ ·)
    let middle : List Int := if p1.doBinary then [97] else []
    let ilist : List Int := cc :: (middle ++ res ++ [0] ++ ant ++ [0])
    let p2 :=
      if p1.doBinary then
        if isInput ∧ p1.doLrat then p1
        else { p1 with file := p1.file ++ [.binary (compressBytes ilist)] }
      else
        if isInput ∧ p1.doLrat then proverComment p1 (some (joinInts ilist))
        else { p1 with file := p1.file ++ [.text (joinInts ilist ++ "\n")] }
    (cc, { p2 with clauseCount := cc, clauseDict := dictSet p2.clauseDict cc res })

/-! ### bdd.py: variables and nodes -/

/-- `Variable.leafLevel` (bdd.py:71), the sentinel level of the leaf
pseudo-variable. -/
def leafLevel : Int := -1

/-- `Variable` (bdd.py:67-104): a level (position in the BDD ordering)
and a resolution-variable id.  Variable equality in the reference
compares levels only; the name is not modelled. -/
structure Variable where
  level : Int
  id : Int
deriving DecidableEq

/-- `Variable.__lt__` (bdd.py:92-98): a leaf-level variable is less than
nothing, every other variable is less than a leaf-level one, and real
variables compare by level. -/
def ltVar (a b : Variable) : Bool :=
  if a.level = leafLevel then false
  else if b.level = leafLevel then true
  else a.level < b.level

/-- Python `min(a, b)` under `@total_ordering`: returns `b` exactly when
`b < a` (bdd.py:457 and friends). -/
def minVar (a b : Variable) : Variable := if ltVar b a then b else a

/-- The leaf pseudo-variable `Variable(leafLevel, "Leaf")`; its id is 0
(bdd.py:74-81, 137). -/
def leafVariable : Variable := ⟨leafLevel, 0⟩

/-- `Node` (bdd.py:107-211): a `LeafNode` carrying value 0 or 1, or a
`VariableNode` carrying its id, branch variable, the two children, and
the four ITE-axiom clause ids recorded at creation
(bdd.py:157-183). -/
inductive Node where
  | leaf (one : Bool)
  | node (id : Int) (var : Variable) (high low : Node)
      (inferTrueUp inferFalseUp inferTrueDown inferFalseDown : Int)
deriving DecidableEq

/-- The zero leaf (`Manager.leaf0`, bdd.py:257). -/
def leaf0 : Node := .leaf false

/-- The one leaf (`Manager.leaf1`, bdd.py:258). -/
def leaf1 : Node := .leaf true

/-- `Node.id`: a leaf's id is the tautology sentinel, positive for the
one leaf and negative for the zero leaf (bdd.py:135-136); an internal
node carries its own id.  `Node.__eq__` compares these ids
(bdd.py:115-116). -/
def nodeId : Node → Int
  | .leaf one => if one then tautologyId else -tautologyId
  | .node id _ _ _ _ _ _ _ => id

/-- `Node.isLeaf`. -/
def isLeafN : Node → Bool
  | .leaf _ => true
  | .node _ _ _ _ _ _ _ _ => false

/-- `Node.variable`; a leaf's variable is the leaf pseudo-variable. -/
def nodeVariable : Node → Variable
  | .leaf _ => leafVariable
  | .node _ v _ _ _ _ _ _ => v

/-- The `high` child.  Only internal nodes have one in the reference;
the leaf case returns the leaf itself and is never reached by the
embedded operations (they branch only after the leaf guards). -/
def nodeHigh : Node → Node
  | .leaf one => .leaf one
  | .node _ _ h _ _ _ _ _ => h

/-- The `low` child (conventions as in `nodeHigh`). -/
def nodeLow : Node → Node
  | .leaf one => .leaf one
  | .node _ _ _ l _ _ _ _ => l

/-- `inferTrueUp`; 0 on a leaf (the reference has no such attribute on
leaves and the embedded operations never read it there). -/
def inferTrueUpOf : Node → Int
  | .leaf _ => 0
  | .node _ _ _ _ a _ _ _ => a

/-- `inferFalseUp` (conventions as in `inferTrueUpOf`). -/
def inferFalseUpOf : Node → Int
  | .leaf _ => 0
  | .node _ _ _ _ _ a _ _ => a

/-- `inferTrueDown` (conventions as in `inferTrueUpOf`). -/
def inferTrueDownOf : Node → Int
  | .leaf _ => 0
  | .node _ _ _ _ _ _ a _ => a

/-- `inferFalseDown` (conventions as in `inferTrueUpOf`). -/
def inferFalseDownOf : Node → Int
  | .leaf _ => 0
  | .node _ _ _ _ _ _ _ a => a

/-- `Node.label` (bdd.py:121-122, 144-145). -/
def label (n : Node) : String :=
  match n with
  | .leaf one => "C" ++ (if one then "1" else "0")
  | .node id _ _ _ _ _ _ _ => "N" ++ toString id

/-- Size of a node's syntax tree, the termination measure of the apply
recursions. -/
def nsize : Node → Nat
  | .leaf _ => 1
  | .node _ _ h l _ _ _ _ => 1 + nsize h + nsize l

/-- `VariableNode.branchHigh` (bdd.py:188-197): raising on
`self.variable < variable` is unreachable from the apply operations
(they pass the minimum of the operand variables), so that branch returns
the node itself here; on equal levels the high child, else the node. -/
def branchHigh (n : Node) (v : Variable) : Node :=
  if ltVar (nodeVariable n) v then n
  else if (nodeVariable n).level = v.level then nodeHigh n
  else n

/-- `VariableNode.branchLow` (bdd.py:199-208), conventions as in
`branchHigh`. -/
def branchLow (n : Node) (v : Variable) : Node :=
  if ltVar (nodeVariable n) v then n
  else if (nodeVariable n).level = v.level then nodeLow n
  else n

/-! ### bdd.py: the Manager -/

/-- An operation-cache value.  The reference stores tuples
`(node-or-bool, justification, clauseList)` for most operations but
`applyAnd` stores the bare node (bdd.py:527); the two shapes are
distinguished here because `cleanCache` subscripts the value and would
fail at runtime on a bare node. -/
inductive CacheVal where
  | tup (r : Node ⊕ Bool) (justification : Int) (clauseList : List Int)
  | bare (r : Node)
deriving DecidableEq

/-- Keys of the operation cache: the operation name and the operand
ids. -/
def CKey : Type := String × List Int

instance : DecidableEq CKey := by
  unfold CKey
  infer_instance

/-- `Manager` state (bdd.py:213-274).  The unique table maps
`(variable.level, high.id, low.id)` to the node; statistics counters are
carried as in the reference; the `rootGenerator` callback is supplied at
the call sites that use it. -/
structure Manager where
  prover : Prover
  vars : List Variable
  nextNodeId : Int
  uniqueTable : List ((Int × Int × Int) × Node)
  operationCache : List (CKey × CacheVal)
  quantifiedVariableSet : List Variable
  lastGC : Int
  verbLevel : Nat
  cacheJustifyAdded : Int
  cacheNoJustifyAdded : Int
  applyCount : Int
  nodeCount : Int
  maxLiveCount : Int
  variableCount : Int
  cacheRemoved : Int
  nodesRemoved : Int
  gcCount : Int

/-- `Manager.__init__` (bdd.py:250-274). -/
def mkManager (prover : Prover) (nextNodeId : Int) (verbLevel : Nat) : Manager :=
  { prover := prover, vars := [], nextNodeId := nextNodeId,
    uniqueTable := [], operationCache := [], quantifiedVariableSet := [],
    lastGC := 0, verbLevel := verbLevel, cacheJustifyAdded := 0,
    cacheNoJustifyAdded := 0, applyCount := 0, nodeCount := 0,
    maxLiveCount := 0, variableCount := 0, cacheRemoved := 0,
    nodesRemoved := 0, gcCount := 0 }

/-- `Manager.newVariable` (bdd.py:276-281) with `Variable.__init__`
(bdd.py:74-84). -/
def newVariable (m : Manager) (id : Option Int) : Variable × Manager :=
  let level : Int := (m.vars.length : Int) + 1
  let vid : Int := match id with
    | none => level
    | some i => if level = leafLevel then 0 else i
  let var : Variable := ⟨level, vid⟩
  (var,
   { m with
     vars := m.vars ++ [var],
     variableCount := m.variableCount + 1 })

/-- `Manager.findOrMake` (bdd.py:283-293) together with
`VariableNode.__init__` (bdd.py:166-183), which creates the four
ITE-axiom clauses through the prover. -/
def findOrMake (m : Manager) (var : Variable) (high low : Node) :
    Node × Manager :=
  let key := (var.level, nodeId high, nodeId low)
  match dictFind m.uniqueTable key with
  | some n => (n, m)
  | none =>
    let id := m.nextNodeId
    let vid := var.id
    let hid := nodeId high
    let lid := nodeId low
    let (tU, p1) := createClause m.prover [id, -vid, -hid] []
        (some ("ITE assertions for node N" ++ toString id)) false
    let (fU, p2) := createClause p1 [id, vid, -lid] [] none false
    let ants : List Int :=
      if p2.doLrat then
        (if tU ≠ tautologyId then [-tU] else [])
          ++ (if fU ≠ tautologyId then [-fU] else [])
      else []
    let (tD, p3) := createClause p2 [-id, -vid, hid] ants none false
    let (fD, p4) := createClause p3 [-id, vid, lid] ants none false
    let n := Node.node id var high low tU fU tD fD
    let table := dictSet m.uniqueTable key n
    (n,
     { m with
       prover := p4, nextNodeId := id + 1, uniqueTable := table,
       nodeCount := m.nodeCount + 1,
       maxLiveCount := max m.maxLiveCount (table.length : Int) })

/-- `Manager.literal` (bdd.py:295-299). -/
def literal (m : Manager) (var : Variable) (phase : Bool) :
    Node × Manager :=
  if phase then findOrMake m var leaf1 leaf0
  else findOrMake m var leaf0 leaf1

/-- Modelled from the spec: `resolver.AndResolver.run` and
`resolver.ImplyResolver.run` are not among the sources.  Spec §4.A: the
resolver walks a resolution strategy over the clauses named in the rule
index, registering each derived clause with the Prover, and returns
`(finalClauseId, listOfAllCreatedClauseIds)`; rules equal to the
tautology sentinel are elided, and a tautological target returns
`(tautologyId, [])`.  The hand-authored strategy is not pinned down by
the spec, so the model performs the minimal run: one derivation of the
target from the non-tautological rules, in rule-index order. -/
def resolverRun (p : Prover) (target : CleanedClause)
    (ruleIndex : List (String × Int)) (comment : Option String) :
    (Int × List Int) × Prover :=
  if target = .sentinel tautologyId then ((tautologyId, []), p)
  else
    let lits : List Int := match target with
      | .sentinel _ => []
      | .lits l => l
    let ants := (ruleIndex.map Prod.snd).filter (fun c => c ≠ tautologyId)
    let (id, p1) := createClause p lits ants comment false
    ((id, if id = tautologyId then [] else [id]), p1)

/-- A cache hit of `applyAndJustify` (bdd.py:451-452) returns the stored
`(node, justification)` prefix.  Only `.tup (.inl _)` values are ever
stored under an `"and"` key by the reference; on the other shapes the
reference would fail at runtime, and the embedding returns an inert
value. -/
def cacheHitPair (v : CacheVal) : Node × Int :=
  match v with
  | .tup (Sum.inl n) j _ => (n, j)
  | .tup (Sum.inr _) j _ => (leaf0, j)
  | .bare n => (n, tautologyId)

/-- A cache hit of `applyAnd` (bdd.py:509-510) returns the stored value,
a bare node under an `"andnj"` key; conventions as in `cacheHitPair`. -/
def cacheNodeOf (v : CacheVal) : Node :=
  match v with
  | .bare n => n
  | .tup (Sum.inl n) _ _ => n
  | .tup (Sum.inr _) _ _ => leaf0

/-- A cache hit of `justifyImply` (bdd.py:630-631) returns the stored
`(check, justification)` prefix; conventions as in `cacheHitPair`. -/
def cacheHitBoolPair (v : CacheVal) : Bool × Int :=
  match v with
  | .tup (Sum.inr c) j _ => (c, j)
  | .tup (Sum.inl _) j _ => (true, j)
  | .bare _ => (true, tautologyId)

/-- Termination helper: `ltVar` is irreflexive. -/
theorem ltVar_irrefl (v : Variable) : ltVar v v = false := by
  unfold ltVar; split <;> simp

/-- Termination helper: `ltVar` is asymmetric. -/
theorem ltVar_asymm {a b : Variable} (h : ltVar b a = true) : ltVar a b = false := by
  unfold ltVar at *
  by_cases h1 : a.level = leafLevel
  all_goals by_cases h2 : b.level = leafLevel
  all_goals simp [h1, h2] at h ⊢
  all_goals omega

/-- Termination helper: a node whose id is neither leaf sentinel is
internal. -/
theorem internal_shape (n : Node) (h1 : nodeId n ≠ tautologyId)
    (h0 : nodeId n ≠ -tautologyId) :
    ∃ i v hi lo a b c d, n = Node.node i v hi lo a b c d := by
  cases n with
  | leaf one =>
    cases one
    · exact absurd rfl h0
    · exact absurd rfl h1
  | node i v hi lo a b c d => exact ⟨i, v, hi, lo, a, b, c, d, rfl⟩

/-- Termination helper: cofactoring two internal nodes on the minimum of
their branch variables strictly shrinks the total size, for the high
pair and for the low pair. -/
theorem branch_sizes {ia ib : Int} {va vb : Variable} {ha la hb lb : Node}
    {tua fua tda fda tub fub tdb fdb : Int} :
    (nsize (branchHigh (.node ia va ha la tua fua tda fda) (minVar va vb))
      + nsize (branchHigh (.node ib vb hb lb tub fub tdb fdb) (minVar va vb))
      < nsize (Node.node ia va ha la tua fua tda fda)
        + nsize (Node.node ib vb hb lb tub fub tdb fdb))
    ∧ (nsize (branchLow (.node ia va ha la tua fua tda fda) (minVar va vb))
      + nsize (branchLow (.node ib vb hb lb tub fub tdb fdb) (minVar va vb))
      < nsize (Node.node ia va ha la tua fua tda fda)
        + nsize (Node.node ib vb hb lb tub fub tdb fdb)) := by
  unfold minVar
  by_cases hlt : ltVar vb va = true
  · rw [if_pos hlt]
    have hf := ltVar_asymm hlt
    simp only [branchHigh, branchLow, nodeVariable, hf, Bool.false_eq_true, if_neg,
      not_false_iff, ltVar_irrefl, if_pos, nodeHigh, nodeLow]
    constructor
    · split <;> simp [nsize, nodeHigh] <;> omega
    · split <;> simp [nsize, nodeLow] <;> omega
  · rw [if_neg hlt]
    simp only [branchHigh, branchLow, nodeVariable, hlt, Bool.false_eq_true, if_neg,
      not_false_iff, ltVar_irrefl, nodeHigh, nodeLow]
    have hfa : ltVar va va = false := ltVar_irrefl va
    simp only [hfa, Bool.false_eq_true, if_neg, not_false_iff, if_pos]
    constructor
    · split <;> simp [nsize, nodeHigh] <;> omega
    · split <;> simp [nsize, nodeLow] <;> omega

/-- `Manager.applyAndJustify` (bdd.py:435-491): conjunction with
justification.  Returns `(newNode, justification)` and the updated
manager; the rule index is built with the reference's insertion order. -/
def applyAndJustify (m : Manager) (nodeA nodeB : Node) :
    (Node × Int) × Manager :=
  let m1 := { m with applyCount := m.applyCount + 1 }
  if nodeId nodeA = nodeId leaf0 ∨ nodeId nodeB = nodeId leaf0 then
    ((leaf0, tautologyId), m1)
  else if nodeId nodeA = nodeId leaf1 then ((nodeB, tautologyId), m1)
  else if nodeId nodeB = nodeId leaf1 then ((nodeA, tautologyId), m1)
  else if nodeId nodeA = nodeId nodeB then ((nodeA, tautologyId), m1)
  else
    let a := if nodeId nodeA > nodeId nodeB then nodeB else nodeA
    let b := if nodeId nodeA > nodeId nodeB then nodeA else nodeB
    let key : CKey := ("and", [nodeId a, nodeId b])
    match dictFind m1.operationCache key with
    | some v => (cacheHitPair v, m1)
    | none =>
      let splitVar := minVar (nodeVariable a) (nodeVariable b)
      let highA := branchHigh a splitVar
      let lowA := branchLow a splitVar
      let highB := branchHigh b splitVar
      let lowB := branchLow b splitVar
      let r1 : List (String × Int) :=
        if nodeId highA ≠ nodeId lowA then
          dictSet (dictSet [] "UHD" (inferTrueDownOf a)) "ULD" (inferFalseDownOf a)
        else []
      let r2 : List (String × Int) :=
        if nodeId highB ≠ nodeId lowB then
          dictSet (dictSet r1 "VHD" (inferTrueDownOf b)) "VLD" (inferFalseDownOf b)
        else r1
      let ((newHigh, andHigh), m2) := applyAndJustify m1 highA highB
      let r3 := dictSet r2 "ANDH" andHigh
      let ((newLow, andLow), m3) := applyAndJustify m2 lowA lowB
      let r4 := dictSet r3 "ANDL" andLow
      let res : Node × List (String × Int) × Manager :=
        if nodeId newHigh = nodeId newLow then (newHigh, r4, m3)
        else
          let (nn, m4) := findOrMake m3 splitVar newHigh newLow
          (nn, dictSet (dictSet r4 "WHU" (inferTrueUpOf nn)) "WLU" (inferFalseUpOf nn), m4)
      let newNode := res.1
      let r5 := res.2.1
      let m5 := res.2.2
      let target := cleanClause [-(nodeId a), -(nodeId b), nodeId newNode]
      let jr : (Int × List Int) × Prover :=
        if target = .sentinel tautologyId then ((tautologyId, []), m5.prover)
        else
          resolverRun m5.prover target r5
            (some ("Justification that " ++ label a ++ " & " ++ label b
              ++ " ==> " ++ label newNode))
      let m6 :=
        { m5 with
          prover := jr.2,
          operationCache :=
            dictSet m5.operationCache key (.tup (Sum.inl newNode) jr.1.1 jr.1.2),
          cacheJustifyAdded := m5.cacheJustifyAdded + 1 }
      ((newNode, jr.1.1), m6)
termination_by nsize nodeA + nsize nodeB
decreasing_by
  all_goals
    simp only [not_or] at *
    obtain ⟨h1, h2⟩ := ‹¬nodeId nodeA = nodeId leaf0 ∧ ¬nodeId nodeB = nodeId leaf0›
    obtain ⟨ia, va, ha', la, a1, a2, a3, a4, hA⟩ :=
      internal_shape nodeA (by simpa [leaf1, nodeId] using ‹¬nodeId nodeA = nodeId leaf1›)
        (by simpa [leaf0, nodeId] using h1)
    obtain ⟨ib, vb, hb', lb', b1, b2, b3, b4, hB⟩ :=
      internal_shape nodeB (by simpa [leaf1, nodeId] using ‹¬nodeId nodeB = nodeId leaf1›)
        (by simpa [leaf0, nodeId] using h2)
    subst hA hB
    by_cases hs : nodeId (Node.node ia va ha' la a1 a2 a3 a4)
        > nodeId (Node.node ib vb hb' lb' b1 b2 b3 b4)
    all_goals simp [hs, nodeVariable]
    · have hbs := @branch_sizes ib ia vb va hb' lb' ha' la b1 b2 b3 b4 a1 a2 a3 a4
      obtain ⟨hh, hl⟩ := hbs
      omega
    · have hbs := @branch_sizes ia ib va vb ha' la hb' lb' a1 a2 a3 a4 b1 b2 b3 b4
      obtain ⟨hh, hl⟩ := hbs
      omega

/-- `Manager.applyAnd` (bdd.py:494-528): the variant that generates no
justification and caches the bare node under an `"andnj"` key. -/
def applyAnd (m : Manager) (nodeA nodeB : Node) : Node × Manager :=
  let m1 := { m with applyCount := m.applyCount + 1 }
  if nodeId nodeA = nodeId leaf0 ∨ nodeId nodeB = nodeId leaf0 then (leaf0, m1)
  else if nodeId nodeA = nodeId leaf1 then (nodeB, m1)
  else if nodeId nodeB = nodeId leaf1 then (nodeA, m1)
  else if nodeId nodeA = nodeId nodeB then (nodeA, m1)
  else
    let a := if nodeId nodeA > nodeId nodeB then nodeB else nodeA
    let b := if nodeId nodeA > nodeId nodeB then nodeA else nodeB
    let key : CKey := ("andnj", [nodeId a, nodeId b])
    match dictFind m1.operationCache key with
    | some v => (cacheNodeOf v, m1)
    | none =>
      let splitVar := minVar (nodeVariable a) (nodeVariable b)
      let highA := branchHigh a splitVar
      let lowA := branchLow a splitVar
      let highB := branchHigh b splitVar
      let lowB := branchLow b splitVar
      let (newHigh, m2) := applyAnd m1 highA highB
      let (newLow, m3) := applyAnd m2 lowA lowB
      let res : Node × Manager :=
        if nodeId newHigh = nodeId newLow then (newHigh, m3)
        else findOrMake m3 splitVar newHigh newLow
      (res.1,
       { res.2 with
         operationCache := dictSet res.2.operationCache key (.bare res.1) })
termination_by nsize nodeA + nsize nodeB
decreasing_by
  all_goals
    simp only [not_or] at *
    obtain ⟨h1, h2⟩ := ‹¬nodeId nodeA = nodeId leaf0 ∧ ¬nodeId nodeB = nodeId leaf0›
    obtain ⟨ia, va, ha', la, a1, a2, a3, a4, hA⟩ :=
      internal_shape nodeA (by simpa [leaf1, nodeId] using ‹¬nodeId nodeA = nodeId leaf1›)
        (by simpa [leaf0, nodeId] using h1)
    obtain ⟨ib, vb, hb', lb', b1, b2, b3, b4, hB⟩ :=
      internal_shape nodeB (by simpa [leaf1, nodeId] using ‹¬nodeId nodeB = nodeId leaf1›)
        (by simpa [leaf0, nodeId] using h2)
    subst hA hB
    by_cases hs : nodeId (Node.node ia va ha' la a1 a2 a3 a4)
        > nodeId (Node.node ib vb hb' lb' b1 b2 b3 b4)
    all_goals simp [hs, nodeVariable]
    · have hbs := @branch_sizes ib ia vb va hb' lb' ha' la b1 b2 b3 b4 a1 a2 a3 a4
      obtain ⟨hh, hl⟩ := hbs
      omega
    · have hbs := @branch_sizes ia ib va vb ha' la hb' lb' a1 a2 a3 a4 b1 b2 b3 b4
      obtain ⟨hh, hl⟩ := hbs
      omega

/-- `Manager.justifyImply` (bdd.py:613-667): implication test with
justification, returning `(check, justification)`. -/
def justifyImply (m : Manager) (nodeA nodeB : Node) :
    (Bool × Int) × Manager :=
  let m1 := { m with applyCount := m.applyCount + 1 }
  if nodeId nodeA = nodeId nodeB then ((true, tautologyId), m1)
  else if nodeId nodeA = nodeId leaf0 then ((true, tautologyId), m1)
  else if nodeId nodeB = nodeId leaf1 then ((true, tautologyId), m1)
  else if nodeId nodeA = nodeId leaf1 then ((false, tautologyId), m1)
  else if nodeId nodeB = nodeId leaf0 then ((false, tautologyId), m1)
  else
    let key : CKey := ("imply", [nodeId nodeA, nodeId nodeB])
    match dictFind m1.operationCache key with
    | some v => (cacheHitBoolPair v, m1)
    | none =>
      let splitVar := minVar (nodeVariable nodeA) (nodeVariable nodeB)
      let highA := branchHigh nodeA splitVar
      let lowA := branchLow nodeA splitVar
      let highB := branchHigh nodeB splitVar
      let lowB := branchLow nodeB splitVar
      let r1 : List (String × Int) :=
        if nodeId highA ≠ nodeId lowA then
          dictSet (dictSet [] "UHD" (inferTrueDownOf nodeA)) "ULD" (inferFalseDownOf nodeA)
        else []
      let r2 : List (String × Int) :=
        if nodeId highB ≠ nodeId lowB then
          dictSet (dictSet r1 "VHU" (inferTrueUpOf nodeB)) "VLU" (inferFalseUpOf nodeB)
        else r1
      let ((checkHigh, implyHigh), m2) := justifyImply m1 highA highB
      let r3 := if implyHigh ≠ tautologyId then dictSet r2 "IMH" implyHigh else r2
      let ((checkLow, implyLow), m3) := justifyImply m2 lowA lowB
      let r4 := if implyLow ≠ tautologyId then dictSet r3 "IML" implyLow else r3
      let check := checkHigh && checkLow
      let jr : (Int × List Int) × Prover :=
        if check then
          resolverRun m3.prover (cleanClause [-(nodeId nodeA), nodeId nodeB]) r4
            (some ("Justification that " ++ label nodeA ++ " ==> " ++ label nodeB))
        else ((tautologyId, []), m3.prover)
      let m4 :=
        { m3 with
          prover := jr.2,
          operationCache :=
            dictSet m3.operationCache key (.tup (Sum.inr check) jr.1.1 jr.1.2),
          cacheJustifyAdded :=
            if jr.1.1 ≠ tautologyId then m3.cacheJustifyAdded + 1
            else m3.cacheJustifyAdded,
          cacheNoJustifyAdded :=
            if jr.1.1 ≠ tautologyId then m3.cacheNoJustifyAdded
            else m3.cacheNoJustifyAdded + 1 }
      ((check, jr.1.1), m4)
termination_by nsize nodeA + nsize nodeB
decreasing_by
  all_goals
    obtain ⟨ia, va, ha', la, a1, a2, a3, a4, hA⟩ :=
      internal_shape nodeA (by simpa [leaf1, nodeId] using ‹¬nodeId nodeA = nodeId leaf1›)
        (by simpa [leaf0, nodeId] using ‹¬nodeId nodeA = nodeId leaf0›)
    obtain ⟨ib, vb, hb', lb', b1, b2, b3, b4, hB⟩ :=
      internal_shape nodeB (by simpa [leaf1, nodeId] using ‹¬nodeId nodeB = nodeId leaf1›)
        (by simpa [leaf0, nodeId] using ‹¬nodeId nodeB = nodeId leaf0›)
    subst hA hB
    simp only [nodeVariable]
    have hbs := @branch_sizes ia ib va vb ha' la hb' lb' a1 a2 a3 a4 b1 b2 b3 b4
    obtain ⟨hh, hl⟩ := hbs
    omega

/-- `Manager.checkImply` (bdd.py:669-671).  The body reads the bare name
`justifyImply`, but the module-level names bound in `bdd.py` are only
its imports and classes (and no builtin has that name), so the lookup
fails and every invocation raises a `NameError`; the embedding returns
the error. -/
def bddModuleNames : List String :=
  ["total_ordering", "sys", "resolver", "BddException", "DummyProver",
   "Variable", "Node", "LeafNode", "VariableNode", "Manager"]

/-- Outcome of `Manager.checkImply` (bdd.py:669-671): either the Boolean
it would return, or the runtime `NameError` from the unresolvable bare
name. -/
def checkImply (m : Manager) (nodeA nodeB : Node) : Except String Bool :=
  match bddModuleNames.find? (fun s => s = "justifyImply") with
  | some _ => .ok (justifyImply m nodeA nodeB).1.1
  | none => .error "NameError: name 'justifyImply' is not defined"

/-! ### bdd.py: observers, satisfying assignments, garbage collection -/

/-- Membership of a node in a Python set or dict of nodes: hash and
equality are the node id (bdd.py:115-119). -/
def memberId (n : Node) (s : List Node) : Bool :=
  s.any (fun x => nodeId x = nodeId n)

/-- `Manager.buildInformation` specialised to its uses (bdd.py:334-342):
the dictionary's key list (insertion-ordered, keyed by node id); the
mapped values are irrelevant to `getSize`. -/
def buildInfo : Node → List Node → List Node
  | n, sofar =>
    if memberId n sofar then sofar
    else
      match n with
      | .leaf one => sofar ++ [.leaf one]
      | .node i v h l a b c d =>
        buildInfo l (buildInfo h (sofar ++ [.node i v h l a b c d]))

/-- `Manager.getSize` (bdd.py:355-357). -/
def getSize (n : Node) : Nat := (buildInfo n []).length

/-- `Manager.satisfy` (bdd.py:408-417): the lists of literal nodes of
all satisfying paths.  `literal` can create nodes, so the manager is
threaded through. -/
def satisfy (m : Manager) (n : Node) : List (List Node) × Manager :=
  match n with
  | .leaf one => (if one then [[]] else [], m)
  | .node _ v h l _ _ _ _ =>
    let (highList, m1) := satisfy m h
    let (hlit, m2) := literal m1 v true
    let highL := highList.map (fun ls => hlit :: ls)
    let (lowList, m3) := satisfy m2 l
    let (llit, m4) := literal m3 v false
    let lowL := lowList.map (fun ls => llit :: ls)
    (highL ++ lowL, m4)

/-- Python list assignment `slist[i] = c` (bdd.py:427): negative indices
wrap once; an index out of range raises `IndexError`, embedded as
`none`. -/
def setAt (cs : List Char) (i : Int) (c : Char) : Option (List Char) :=
  let n : Int := cs.length
  let j := if i < 0 then i + n else i
  if 0 ≤ j ∧ j < n then some (cs.set j.toNat c) else none

/-- The inner loop of `Manager.satisfyStrings` (bdd.py:425-427): write
`'1'` or `'0'` at position `level - 1` for each literal (a literal is
positive when its high child is the one leaf). -/
def renderLits : List Node → List Char → Option (List Char)
  | [], slist => some slist
  | lit :: rest, slist =>
    let positive := nodeId (nodeHigh lit) = nodeId leaf1
    match setAt slist ((nodeVariable lit).level - 1) (if positive then '1' else '0') with
    | none => none
    | some s2 => renderLits rest s2

/-- The break test of `Manager.satisfyStrings` (bdd.py:429):
`limit is not None and len(stringList) >= limit`. -/
def limitReached (limit : Option Nat) (len : Nat) : Bool :=
  match limit with
  | some l => len ≥ l
  | none => false

/-- The outer loop of `Manager.satisfyStrings` (bdd.py:422-430): `count`
is the number of strings already accumulated; after appending, the loop
breaks when the limit is reached. -/
def renderLoop (numVars : Nat) (limit : Option Nat) :
    List (List Node) → Nat → Option (List String)
  | [], _ => some []
  | litList :: rest, count =>
    match renderLits litList (List.replicate numVars '-') with
    | none => none
    | some slist =>
      let s := String.mk slist
      if limitReached limit (count + 1) then some [s]
      else
        match renderLoop numVars limit rest (count + 1) with
        | none => none
        | some ss => some (s :: ss)

/-- `Manager.satisfyStrings` (bdd.py:420-431). -/
def satisfyStrings (m : Manager) (n : Node) (limit : Option Nat) :
    Option (List String) × Manager :=
  let (satList, m1) := satisfy m n
  (renderLoop m1.vars.length limit satList 0, m1)

/-- The SAT-outcome output of `Solver.runNoSchedule` (pgbdd.py:516):
the satisfying assignments are rendered with `limit = 20`. -/
def satAssignmentOutput (m : Manager) (root : Node) :
    Option (List String) × Manager :=
  satisfyStrings m root (some 20)

/-- The non-leaf children pushed on the marking frontier
(bdd.py:724-727): high first, then low. -/
def internalChildren (n : Node) : List Node :=
  (if ¬ isLeafN (nodeHigh n) then [nodeHigh n] else [])
    ++ (if ¬ isLeafN (nodeLow n) then [nodeLow n] else [])

/-- Termination helper: every node has positive size. -/
theorem nsize_pos (n : Node) : 1 ≤ nsize n := by
  cases n
  · simp [nsize]
  · simp only [nsize]; omega

/-- `Manager.doMarking` (bdd.py:716-728): worklist marking from the
frontier; the marked set is a Python set of nodes, embedded as a list
with id-membership. -/
def doMarking (markedSet : List Node) (frontier : List Node) : List Node :=
  match frontier with
  | [] => markedSet
  | n :: rest =>
    if memberId n markedSet then doMarking markedSet rest
    else doMarking (markedSet ++ [n]) (rest ++ internalChildren n)
termination_by (frontier.map nsize).sum
decreasing_by
  · simp only [List.map_cons, List.sum_cons]
    have := nsize_pos n
    omega
  · simp only [List.map_cons, List.sum_cons, List.map_append, List.sum_append]
    have h1 : (List.map nsize (internalChildren n)).sum < nsize n := by
      cases n with
      | leaf one => simp [internalChildren, nodeHigh, nodeLow, isLeafN, nsize]
      | node i v h l a b c d =>
        simp only [internalChildren, nodeHigh, nodeLow, nsize, isLeafN]
        split
        all_goals split
        all_goals simp only [List.map_append, List.sum_append, List.map_cons,
          List.sum_cons, List.map_nil, List.sum_nil]
        all_goals omega
    omega

/-- The list  of the four ITE-axiom clause ids of a removed node with
tautology sentinels skipped (bdd.py:753-754). -/
def nodeClauseIds (n : Node) : List Int :=
  [inferTrueUpOf n, inferFalseUpOf n, inferTrueDownOf n, inferFalseDownOf n].filter
    (fun c => |c| ≠ tautologyId)

/-- The clause-id list stored in a cache value (`value[2]`,
bdd.py:740); a bare node has none. -/
def cacheValClauses : CacheVal → List Int
  | .tup _ _ cl => cl
  | .bare _ => []

/-- The test `value[0] not in markedSet` of `Manager.cleanCache`
(bdd.py:735).  A Boolean value is never an element of a set of nodes
whose ids exceed 1 (the reference relies on node hashes being ids);
subscripting a bare node (an `"andnj"` value) is a runtime type error in
the reference, so entries of that shape are outside the theorems'
hypotheses and any total answer serves. -/
def cacheFirstUnmarked (markedSet : List Node) : CacheVal → Bool
  | .tup (Sum.inl n) _ _ => ! memberId n markedSet
  | .tup (Sum.inr _) _ _ => true
  | .bare _ => true

/-- `Manager.cleanCache` (bdd.py:730-744): returns the accumulated
clause ids of the killed entries (in table order), the surviving cache,
and the number of entries removed. -/
def cleanCache (markedSet : List Node) :
    List (CKey × CacheVal) → List Int × List (CKey × CacheVal) × Nat
  | [] => ([], [], 0)
  | (k, v) :: rest =>
    let (cl, c, r) := cleanCache markedSet rest
    let markedIds := markedSet.map nodeId
    let kill := cacheFirstUnmarked markedSet v
      || k.2.any (fun i => ! markedIds.contains i)
    if kill then (cacheValClauses v ++ cl, c, r + 1) else (cl, (k, v) :: c, r)

/-- `Manager.cleanNodes` (bdd.py:746-758): removes the unique-table
entries whose node is unmarked, accumulating their filtered ITE-axiom
clause ids in table order, and counts the removals. -/
def cleanNodes (markedSet : List Node) :
    List ((Int × Int × Int) × Node) →
      List Int × List ((Int × Int × Int) × Node) × Nat
  | [] => ([], [], 0)
  | (k, n) :: rest =>
    let (cl, t, r) := cleanNodes markedSet rest
    if memberId n markedSet then (cl, (k, n) :: t, r)
    else (nodeClauseIds n ++ cl, t, r + 1)

/-- `Manager.collectGarbage` (bdd.py:763-775).  The `rootGenerator`
callback's contribution is passed as `genRoots` (the reference appends
it to the supplied root list when the callback is set). -/
def collectGarbage (m : Manager) (rootList genRoots : List Node) :
    List Int × Manager :=
  let frontier := (rootList ++ genRoots).filter (fun r => ¬ isLeafN r)
  let markedSet := doMarking [] frontier
  let cc := cleanCache markedSet m.operationCache
  let cn := cleanNodes markedSet m.uniqueTable
  (cc.1 ++ cn.1,
   { m with
     operationCache := cc.2.1, uniqueTable := cn.2.1,
     cacheRemoved := m.cacheRemoved + (cc.2.2 : Int),
     nodesRemoved := m.nodesRemoved + (cn.2.2 : Int),
     lastGC := (m.quantifiedVariableSet.length : Int),
     gcCount := m.gcCount + 1 })

/-- The internal nodes reachable from a node along high/low edges
(harness for C2): the node itself when internal, with the closures of
its children. -/
def reachInternal : Node → List Node
  | .leaf _ => []
  | .node i v h l a b c d =>
    Node.node i v h l a b c d :: (reachInternal h ++ reachInternal l)

/-! ### pgbdd.py: the Term layer -/

/-- `Term` (pgbdd.py:149-162): a root node, its size (computed at
construction through `Manager.getSize`), and the validating clause
id. -/
structure Term where
  root : Node
  size : Nat
  validation : Int
deriving DecidableEq

/-- `Term.__init__` (pgbdd.py:157-162). -/
def mkTerm (root : Node) (validation : Int) : Term :=
  { root := root, size := getSize root, validation := validation }

/-- `Term.combine` (pgbdd.py:165-182): conjunction of two terms with
proof; reuses a validation when the conjunction returns one operand with
a tautological implication, otherwise creates the validating unit
clause. -/
def combine (m : Manager) (t other : Term) : Term × Manager :=
  let antecedents := [t.validation, other.validation]
  let ajr := applyAndJustify m t.root other.root
  let newRoot := ajr.1.1
  let implication := ajr.1.2
  let m1 := ajr.2
  let comment :=
    if nodeId newRoot = nodeId leaf0 then "Validation of Empty clause"
    else "Validation of " ++ label newRoot
  let validationO : Option Int :=
    if implication = tautologyId then
      if nodeId newRoot = nodeId t.root then some t.validation
      else if nodeId newRoot = nodeId other.root then some other.validation
      else none
    else none
  let ants :=
    if implication = tautologyId then antecedents
    else antecedents ++ [implication]
  let vp : Int × Prover :=
    match validationO with
    | some v => (v, m1.prover)
    | none => createClause m1.prover [nodeId newRoot] ants (some comment) false
  (mkTerm newRoot vp.1, { m1 with prover := vp.2 })

/-! ### reachable manager states -/

/-- One embedded operation on a manager (harness for C1): the manager
evolves by variable creation, node creation, the apply operations, the
satisfying-assignment enumeration, garbage collection, term combination,
or an update of the prover component alone (which touches no table). -/
inductive Step : Manager → Manager → Prop where
  | newVar (m : Manager) (id : Option Int) : Step m (newVariable m id).2
  | findOrMakeOp (m : Manager) (v : Variable) (h l : Node) :
      Step m (findOrMake m v h l).2
  | literalOp (m : Manager) (v : Variable) (phase : Bool) :
      Step m (literal m v phase).2
  | applyAndJustifyOp (m : Manager) (a b : Node) :
      Step m (applyAndJustify m a b).2
  | applyAndOp (m : Manager) (a b : Node) : Step m (applyAnd m a b).2
  | justifyImplyOp (m : Manager) (a b : Node) : Step m (justifyImply m a b).2
  | satisfyOp (m : Manager) (n : Node) : Step m (satisfy m n).2
  | satisfyStringsOp (m : Manager) (n : Node) (lim : Option Nat) :
      Step m (satisfyStrings m n lim).2
  | collectGarbageOp (m : Manager) (roots gen : List Node) :
      Step m (collectGarbage m roots gen).2
  | combineOp (m : Manager) (t u : Term) : Step m (combine m t u).2
  | proverOp (m : Manager) (p : Prover) : Step m { m with prover := p }

/-- A manager reachable from a freshly constructed one by the embedded
operations (harness for C1). -/
def Reachable (m : Manager) : Prop :=
  ∃ p nid v, Relation.ReflTransGen Step (mkManager p nid v) m

/-- The record a non-tautological, non-input clause writes to the output
stream: the compressed bytes of `ilist` in binary mode, the joined text
line otherwise (pgbdd.py:328-340). -/
def recordOf (doBinary : Bool) (ilist : List Int) : FileRecord :=
  if doBinary then .binary (compressBytes ilist) else .text (joinInts ilist ++ "\n")

/-- The number of requests in a list whose literal list does not clean
to the tautology sentinel (harness for C3). -/
def nontautCount : List (List Int × List Int) → Nat
  | [] => 0
  | (res, _) :: rest =>
    (if cleanClause res = .sentinel tautologyId then 0 else 1) + nontautCount rest

/-- A run of `createClause` calls (harness for C3): performs the given
requests in order and collects the ids returned by the calls whose
literal list does not clean to the tautology sentinel. -/
def createRun (p : Prover) : List (List Int × List Int) → List Int × Prover
  | [] => ([], p)
  | (res, ants) :: rest =>
    let (id, p1) := createClause p res ants none false
    let (ids, p2) := createRun p1 rest
    (if cleanClause res = .sentinel tautologyId then ids else id :: ids, p2)

/-! ### harness for C10: the proof-free and proof-generating apply -/

/-- A node with the four inference-clause fields zeroed recursively
(harness for C10): the only data the proof-generating run threads
through nodes beyond the proof-free run. -/
def eraseInfer : Node → Node
  | .leaf one => .leaf one
  | .node i v h l _ _ _ _ => .node i v (eraseInfer h) (eraseInfer l) 0 0 0 0

/-- A unique-table entry with its node's inference fields zeroed
(harness for C10). -/
def eraseEntry (kn : (Int × Int × Int) × Node) : (Int × Int × Int) × Node :=
  (kn.1, eraseInfer kn.2)

/-- Correspondence between the value an `applyAndJustify` run keeps
under an `"and"` cache key and the value an `applyAnd` run keeps under
the matching `"andnj"` key (harness for C10). -/
def CacheEntryRel : Option CacheVal → Option CacheVal → Prop
  | none, none => True
  | some (.tup (Sum.inl n) _ _), some (.bare n2) => eraseInfer n = eraseInfer n2
  | _, _ => False

/-- Lockstep relation between the manager of an `applyAndJustify` run
and the manager of an `applyAnd` run from the same origin (harness for
C10): equal next node id, equal unique tables up to inference fields,
and corresponding conjunction caches. -/
def AndSim (s t : Manager) : Prop :=
  s.nextNodeId = t.nextNodeId
  ∧ s.uniqueTable.map eraseEntry = t.uniqueTable.map eraseEntry
  ∧ ∀ ids : List Int,
      CacheEntryRel (dictFind s.operationCache ("and", ids))
        (dictFind t.operationCache ("andnj", ids))

/-! ## Theorems -/

theorem proverComment_clauseCount (p : Prover) (c : Option String) :
    (proverComment p c).clauseCount = p.clauseCount := by
  cases c <;> simp [proverComment] <;> split <;> rfl

theorem proverComment_doLrat (p : Prover) (c : Option String) :
    (proverComment p c).doLrat = p.doLrat := by
  cases c <;> simp [proverComment] <;> split <;> rfl

theorem proverComment_doBinary (p : Prover) (c : Option String) :
    (proverComment p c).doBinary = p.doBinary := by
  cases c <;> simp [proverComment] <;> split <;> rfl

theorem createClause_of_taut (p : Prover) (res ants : List Int)
    (c : Option String) (inp : Bool) (h : cleanClause res = .sentinel tautologyId) :
    createClause p res ants c inp = (tautologyId, proverComment p c) := by
  simp [createClause, h]

theorem createClause_clauseCount_of_not_taut (p : Prover) (res ants : List Int)
    (c : Option String) (inp : Bool) (h : cleanClause res ≠ .sentinel tautologyId) :
    (createClause p res ants c inp).1 = p.clauseCount + 1
      ∧ (createClause p res ants c inp).2.clauseCount = p.clauseCount + 1 := by
  simp only [createClause, h, if_neg, not_false_iff]
  constructor
  · rw [proverComment_clauseCount]
  · simp only [proverComment_clauseCount]

/-- Along a run of `createClause` calls, the ids handed out to the
non-tautological requests are consecutive, starting right after the
prover's current counter. -/
theorem createRun_ids (p : Prover) (reqs : List (List Int × List Int)) :
    (createRun p reqs).1
        = (List.range (nontautCount reqs)).map (fun i : Nat => p.clauseCount + (i : Int) + 1)
      ∧ (createRun p reqs).2.clauseCount
        = p.clauseCount + (nontautCount reqs : Int) := by
  induction reqs generalizing p with
  | nil => simp [createRun, nontautCount]
  | cons req rest ih =>
    obtain ⟨res, ants⟩ := req
    by_cases h : cleanClause res = .sentinel tautologyId
    · have he : createClause p res ants none false = (tautologyId, p) :=
        createClause_of_taut p res ants none false h
      simp only [createRun, he, h, if_pos, nontautCount, Nat.zero_add]
      exact ih p
    · have hc := createClause_clauseCount_of_not_taut p res ants none false h
      simp only [createRun, h, if_neg, not_false_iff, nontautCount, Nat.one_add]
      have hcc : (createClause p res ants none false).2.clauseCount = p.clauseCount + 1 := hc.2
      have := ih (createClause p res ants none false).2
      rw [hcc] at this
      constructor
      · rw [List.range_succ_eq_map, List.map_cons]
        rw [hc.1, this.1]
        congr 1
        · push_cast; ring
        · rw [List.map_map]
          apply List.map_congr_left
          intro i _
          simp only [Function.comp_apply]
          push_cast
          ring
      · rw [this.2]
        push_cast
        ring

/-- C3: `createClause` returns the sentinel and leaves the counter alone
on a tautological clause, returns the incremented counter otherwise, so
a run of calls from a fresh prover hands out exactly the ids 1, 2, 3, …
to its non-tautological requests in order. -/
theorem C3_createClause_sequential_ids (p : Prover) (res ants : List Int)
    (c : Option String) (inp : Bool) :
    (cleanClause res = .sentinel tautologyId →
        (createClause p res ants c inp).1 = tautologyId ∧
        (createClause p res ants c inp).2.clauseCount = p.clauseCount) ∧
    (cleanClause res ≠ .sentinel tautologyId →
        (createClause p res ants c inp).1 = p.clauseCount + 1 ∧
        (createClause p res ants c inp).2.clauseCount = p.clauseCount + 1) ∧
    ∀ (v : Nat) (dl db : Bool) (reqs : List (List Int × List Int)),
      (createRun (mkProver v dl db) reqs).1
        = (List.range (nontautCount reqs)).map (fun i : Nat => (i : Int) + 1) := by
  refine ⟨fun h => ?_, fun h => createClause_clauseCount_of_not_taut p res ants c inp h,
    fun v dl db reqs => ?_⟩
  · rw [createClause_of_taut p res ants c inp h]
    exact ⟨rfl, proverComment_clauseCount p c⟩
  · have := (createRun_ids (mkProver v dl db) reqs).1
    rw [this]
    apply List.map_congr_left
    intro i _
    show (mkProver v dl db).clauseCount + (i : Int) + 1 = (i : Int) + 1
    show (0 : Int) + (i : Int) + 1 = (i : Int) + 1
    ring

/-- C3 witness: a non-tautological call from a fresh prover returns id 1. -/
theorem C3_witness :
    (createClause (mkProver 1 false false) [1] [] none false).1
        = (mkProver 1 false false).clauseCount + 1
      ∧ (createClause (mkProver 1 false false) [1] [] none false).2.clauseCount
        = (mkProver 1 false false).clauseCount + 1 :=
  (C3_createClause_sequential_ids (mkProver 1 false false) [1] [] none false).2.1
    (by decide)

/-- C4: in the record written for a non-tautological clause, the
antecedent segment is the supplied list sorted ascending when the format
is tracecheck (`doLrat` false), and is the supplied list unchanged when
the format is LRAT text or binary (`doLrat` true). -/
theorem C4_createClause_antecedent_order (p : Prover) (res ants : List Int)
    (c : Option String) (inp : Bool)
    (h : cleanClause res ≠ .sentinel tautologyId)
    (hni : ¬(inp = true ∧ p.doLrat = true)) :
    ((createClause p res ants c inp).2.file
        = (proverComment p c).file
          ++ [recordOf p.doBinary
              ((p.clauseCount + 1)
                :: ((if p.doBinary then [97] else []) ++ cleanedLits res ++ [0]
                    ++ (if p.doLrat then ants else ants.insertionSort (· ≤ ·)) ++ [0]))])
    ∧ (p.doLrat = true → (if p.doLrat then ants else ants.insertionSort (· ≤ ·)) = ants)
    ∧ (p.doLrat = false →
        (if p.doLrat then ants else ants.insertionSort (· ≤ ·)).Sorted (· ≤ ·)
        ∧ (if p.doLrat then ants else ants.insertionSort (· ≤ ·)).Perm ants) := by
  refine ⟨?_, fun hl => by rw [if_pos hl], fun hl => ?_⟩
  · simp only [createClause, h, if_neg, not_false_iff, recordOf]
    rw [proverComment_clauseCount, proverComment_doLrat, proverComment_doBinary]
    by_cases hb : p.doBinary = true
    · simp [hb, hni]
    · simp [hb, hni]
  · have hni2 : ¬(p.doLrat = true) := by rw [hl]; exact Bool.false_ne_true
    rw [if_neg hni2]
    exact ⟨List.sorted_insertionSort _ ants, List.perm_insertionSort _ ants⟩

/-- C4 witness: a tracecheck-mode call writes the sorted antecedents and
an LRAT-mode call preserves them (instantiated at a concrete call). -/
theorem C4_witness :
    ((createClause (mkProver 1 false false) [2] [3, 1] none false).2.file
        = (proverComment (mkProver 1 false false) none).file
          ++ [recordOf false
              (((mkProver 1 false false).clauseCount + 1)
                :: ((if false then [97] else []) ++ cleanedLits [2] ++ [0]
                    ++ (if false then [3, 1]
                        else ([3, 1] : List Int).insertionSort (· ≤ ·)) ++ [0]))])
      ∧ (false = true → (if false then ([3, 1] : List Int)
          else ([3, 1] : List Int).insertionSort (· ≤ ·)) = [3, 1])
      ∧ (false = false →
          (if false then ([3, 1] : List Int)
            else ([3, 1] : List Int).insertionSort (· ≤ ·)).Sorted (· ≤ ·)
          ∧ (if false then ([3, 1] : List Int)
              else ([3, 1] : List Int).insertionSort (· ≤ ·)).Perm [3, 1]) :=
  C4_createClause_antecedent_order (mkProver 1 false false) [2] [3, 1] none false
    (by decide) (by simp)

/-- C8: every invocation of `checkImply` fails at runtime: its body
refers to `justifyImply` by bare name, which is not among the
module-level names of `bdd.py` (nor a Python builtin), so the lookup
fails with a `NameError` and no Boolean is ever returned. -/
theorem C8_checkImply_raises_nameError (m : Manager) (a b : Node) :
    checkImply m a b
      = .error "NameError: name 'justifyImply' is not defined" := by
  rfl

/-- C6: the special cases of `justifyImply`, in the reference's order:
`A = B`, `A = 0`, or `B = 1` yield `(true, τ)`; failing those, `A = 1`
or `B = 0` yield `(false, τ)` (node comparison is id comparison). -/
theorem C6_justifyImply_special_cases (m : Manager) (a b : Node) :
    ((nodeId a = nodeId b ∨ nodeId a = nodeId leaf0 ∨ nodeId b = nodeId leaf1) →
      justifyImply m a b
        = ((true, tautologyId), { m with applyCount := m.applyCount + 1 }))
    ∧ (¬(nodeId a = nodeId b ∨ nodeId a = nodeId leaf0 ∨ nodeId b = nodeId leaf1) →
      (nodeId a = nodeId leaf1 ∨ nodeId b = nodeId leaf0) →
      justifyImply m a b
        = ((false, tautologyId), { m with applyCount := m.applyCount + 1 })) := by
  constructor
  · intro h
    rw [justifyImply]
    split_ifs with h1 h2 h3 h4 h5
    · rfl
    · rfl
    · rfl
    · rcases h with h | h | h
      · exact absurd h h1
      · exact absurd h h2
      · exact absurd h h3
    · rcases h with h | h | h
      · exact absurd h h1
      · exact absurd h h2
      · exact absurd h h3
    · rcases h with h | h | h
      · exact absurd h h1
      · exact absurd h h2
      · exact absurd h h3
  · intro h hf
    rw [justifyImply]
    have h1 : ¬ nodeId a = nodeId b := fun hc => h (Or.inl hc)
    have h2 : ¬ nodeId a = nodeId leaf0 := fun hc => h (Or.inr (Or.inl hc))
    have h3 : ¬ nodeId b = nodeId leaf1 := fun hc => h (Or.inr (Or.inr hc))
    split_ifs with g1 g2
    · rfl
    · rfl
    · rcases hf with hf | hf
      · exact absurd hf g1
      · exact absurd hf g2

/-- C6 witness: `justifyImply` on the two distinct leaves in each order,
through the theorem. -/
theorem C6_witness :
    justifyImply (mkManager (mkProver 1 false false) 1 1) leaf0 leaf1
      = ((true, tautologyId),
         { mkManager (mkProver 1 false false) 1 1 with
           applyCount := (mkManager (mkProver 1 false false) 1 1).applyCount + 1 })
    ∧ justifyImply (mkManager (mkProver 1 false false) 1 1) leaf1 leaf0
      = ((false, tautologyId),
         { mkManager (mkProver 1 false false) 1 1 with
           applyCount := (mkManager (mkProver 1 false false) 1 1).applyCount + 1 }) :=
  ⟨(C6_justifyImply_special_cases (mkManager (mkProver 1 false false) 1 1) leaf0 leaf1).1
      (by decide),
   (C6_justifyImply_special_cases (mkManager (mkProver 1 false false) 1 1) leaf1 leaf0).2
      (by decide) (by decide)⟩

/-- C5: `combine` takes `(newRoot, implication)` from `applyAndJustify`
on the two roots; with a tautological implication it reuses the first
term's validation when `newRoot` is the first root (symmetrically the
second), creating no clause and leaving the manager as `applyAndJustify`
left it; otherwise the validation is a fresh unit clause `[newRoot.id]`
whose antecedents are the two validations, extended by the implication
exactly when it is not the tautology sentinel. -/
theorem C5_combine_validation (m : Manager) (t u : Term) :
    let ajr := applyAndJustify m t.root u.root
    let newRoot := ajr.1.1
    let implication := ajr.1.2
    let m1 := ajr.2
    let comment := if nodeId newRoot = nodeId leaf0 then "Validation of Empty clause"
      else "Validation of " ++ label newRoot
    let cc := createClause m1.prover [nodeId newRoot]
      ([t.validation, u.validation]
        ++ (if implication = tautologyId then [] else [implication]))
      (some comment) false
    ((implication = tautologyId ∧ nodeId newRoot = nodeId t.root) →
        combine m t u = (mkTerm newRoot t.validation, m1))
    ∧ ((implication = tautologyId ∧ nodeId newRoot ≠ nodeId t.root
          ∧ nodeId newRoot = nodeId u.root) →
        combine m t u = (mkTerm newRoot u.validation, m1))
    ∧ ((implication ≠ tautologyId ∨
          (nodeId newRoot ≠ nodeId t.root ∧ nodeId newRoot ≠ nodeId u.root)) →
        combine m t u = (mkTerm newRoot cc.1, { m1 with prover := cc.2 })) := by
  refine ⟨?_, ?_, ?_⟩
  · rintro ⟨hi, hr⟩
    simp only [combine, if_pos hi, if_pos hr]
  · rintro ⟨hi, hrt, hru⟩
    simp only [combine, if_pos hi, if_neg hrt, if_pos hru]
  · intro h
    rcases h with hi | ⟨hrt, hru⟩
    · simp only [combine, if_neg hi]
    · by_cases hi : (applyAndJustify m t.root u.root).1.2 = tautologyId
      · simp only [combine, if_pos hi, if_neg hrt, if_neg hru, List.append_nil]
      · simp only [combine, if_neg hi]

set_option maxHeartbeats 2000000 in
/-- On equal operand ids (and no leaf guard firing), `applyAndJustify`
returns the first operand with the tautology sentinel. -/
theorem applyAndJustify_self (m : Manager) (a b : Node)
    (h0 : ¬(nodeId a = nodeId leaf0 ∨ nodeId b = nodeId leaf0))
    (h1 : ¬ nodeId a = nodeId leaf1) (h2 : ¬ nodeId b = nodeId leaf1)
    (h : nodeId a = nodeId b) :
    applyAndJustify m a b
      = ((a, tautologyId), { m with applyCount := m.applyCount + 1 }) := by
  unfold applyAndJustify
  rw [if_neg h0, if_neg h1, if_neg h2, if_pos h]

/-- C5 witness: combining a term with itself reuses its validation (the
conjunction returns the shared root with a tautological implication). -/
theorem C5_witness :
    ((applyAndJustify (mkManager (mkProver 1 false false) 4 1)
        (mkTerm (Node.node 2 ⟨1, 1⟩ leaf1 leaf0 3 4 5 6) 1).root
        (mkTerm (Node.node 2 ⟨1, 1⟩ leaf1 leaf0 3 4 5 6) 2).root).1.2 = tautologyId
      ∧ nodeId (applyAndJustify (mkManager (mkProver 1 false false) 4 1)
          (mkTerm (Node.node 2 ⟨1, 1⟩ leaf1 leaf0 3 4 5 6) 1).root
          (mkTerm (Node.node 2 ⟨1, 1⟩ leaf1 leaf0 3 4 5 6) 2).root).1.1
        = nodeId (mkTerm (Node.node 2 ⟨1, 1⟩ leaf1 leaf0 3 4 5 6) 1).root)
    ∧ combine (mkManager (mkProver 1 false false) 4 1)
        (mkTerm (Node.node 2 ⟨1, 1⟩ leaf1 leaf0 3 4 5 6) 1)
        (mkTerm (Node.node 2 ⟨1, 1⟩ leaf1 leaf0 3 4 5 6) 2)
      = (mkTerm (applyAndJustify (mkManager (mkProver 1 false false) 4 1)
            (mkTerm (Node.node 2 ⟨1, 1⟩ leaf1 leaf0 3 4 5 6) 1).root
            (mkTerm (Node.node 2 ⟨1, 1⟩ leaf1 leaf0 3 4 5 6) 2).root).1.1 1,
         (applyAndJustify (mkManager (mkProver 1 false false) 4 1)
            (mkTerm (Node.node 2 ⟨1, 1⟩ leaf1 leaf0 3 4 5 6) 1).root
            (mkTerm (Node.node 2 ⟨1, 1⟩ leaf1 leaf0 3 4 5 6) 2).root).2) := by
  have h : (applyAndJustify (mkManager (mkProver 1 false false) 4 1)
        (mkTerm (Node.node 2 ⟨1, 1⟩ leaf1 leaf0 3 4 5 6) 1).root
        (mkTerm (Node.node 2 ⟨1, 1⟩ leaf1 leaf0 3 4 5 6) 2).root).1.2 = tautologyId
      ∧ nodeId (applyAndJustify (mkManager (mkProver 1 false false) 4 1)
          (mkTerm (Node.node 2 ⟨1, 1⟩ leaf1 leaf0 3 4 5 6) 1).root
          (mkTerm (Node.node 2 ⟨1, 1⟩ leaf1 leaf0 3 4 5 6) 2).root).1.1
        = nodeId (mkTerm (Node.node 2 ⟨1, 1⟩ leaf1 leaf0 3 4 5 6) 1).root := by
    rw [applyAndJustify_self _ _ _ (by decide) (by decide) (by decide) (by decide)]
    exact ⟨rfl, rfl⟩
  exact ⟨h, (C5_combine_validation (mkManager (mkProver 1 false false) 4 1)
      (mkTerm (Node.node 2 ⟨1, 1⟩ leaf1 leaf0 3 4 5 6) 1)
      (mkTerm (Node.node 2 ⟨1, 1⟩ leaf1 leaf0 3 4 5 6) 2)).1 h⟩

/-- Writing the literal characters succeeds when every literal's level
is within the rendered word, and it preserves the length and introduces
only the characters `'1'` and `'0'`. -/
theorem renderLits_props (ls : List Node) (slist : List Char)
    (hb : ∀ lit ∈ ls, 1 ≤ (nodeVariable lit).level
      ∧ (nodeVariable lit).level ≤ (slist.length : Int)) :
    ∃ out, renderLits ls slist = some out ∧ out.length = slist.length
      ∧ ∀ x ∈ out, x ∈ slist ∨ x = '1' ∨ x = '0' := by
  induction ls generalizing slist with
  | nil => exact ⟨slist, rfl, rfl, fun x hx => Or.inl hx⟩
  | cons lit rest ih =>
    obtain ⟨h1, h2⟩ := hb lit (List.mem_cons_self lit rest)
    have hset : setAt slist ((nodeVariable lit).level - 1)
        (if nodeId (nodeHigh lit) = nodeId leaf1 then '1' else '0')
        = some (slist.set ((nodeVariable lit).level - 1).toNat
            (if nodeId (nodeHigh lit) = nodeId leaf1 then '1' else '0')) := by
      simp only [setAt]
      have hj : ¬ ((nodeVariable lit).level - 1 < 0) := by omega
      rw [if_neg hj]
      rw [if_pos (by constructor <;> omega)]
    obtain ⟨out, ho, hl, hc⟩ := ih
      (slist.set ((nodeVariable lit).level - 1).toNat
        (if nodeId (nodeHigh lit) = nodeId leaf1 then '1' else '0'))
      (by
        intro l hl
        have := hb l (List.mem_cons_of_mem lit hl)
        simpa [List.length_set] using this)
    refine ⟨out, ?_, ?_, ?_⟩
    · rw [renderLits, hset]
      exact ho
    · rw [hl, List.length_set]
    · intro x hx
      rcases hc x hx with hin | h10
      · rcases List.mem_or_eq_of_mem_set hin with hin2 | heq
        · exact Or.inl hin2
        · subst heq
          split
          · exact Or.inr (Or.inl rfl)
          · exact Or.inr (Or.inr rfl)
      · exact Or.inr h10

/-- The rendering loop with a positive remaining budget returns at most
`L - count` strings of the right length over the `'1'`, `'0'`, `'-'`
alphabet. -/
theorem renderLoop_props (numVars L : Nat) (lists : List (List Node))
    (count : Nat) (hcount : count < L)
    (hb : ∀ ls ∈ lists, ∀ lit ∈ ls, 1 ≤ (nodeVariable lit).level
      ∧ (nodeVariable lit).level ≤ (numVars : Int)) :
    ∃ out, renderLoop numVars (some L) lists count = some out
      ∧ out.length ≤ L - count
      ∧ ∀ s ∈ out, s.length = numVars
          ∧ ∀ c ∈ s.data, c = '1' ∨ c = '0' ∨ c = '-' := by
  induction lists generalizing count with
  | nil => exact ⟨[], rfl, by simp, by simp⟩
  | cons ls rest ih =>
    obtain ⟨slist, hs, hlen, hchars⟩ := renderLits_props ls
      (List.replicate numVars '-')
      (by
        intro lit hlit
        have := hb ls (List.mem_cons_self ls rest) lit hlit
        simpa [List.length_replicate] using this)
    have hsp : (String.mk slist).length = numVars := by
      simpa [List.length_replicate] using hlen
    have hcp : ∀ c ∈ (String.mk slist).data, c = '1' ∨ c = '0' ∨ c = '-' := by
      intro c hcm
      rcases hchars c hcm with hin | h10
      · exact Or.inr (Or.inr (List.eq_of_mem_replicate hin))
      · rcases h10 with h | h
        · exact Or.inl h
        · exact Or.inr (Or.inl h)
    by_cases hlim : count + 1 ≥ L
    · have hcnd : limitReached (some L) (count + 1) = true := by
        simp [limitReached]; omega
      refine ⟨[String.mk slist], ?_, by simp; omega, ?_⟩
      · simp [renderLoop, hs, hcnd]
      · intro s hsm
        rcases List.mem_singleton.mp hsm with rfl
        exact ⟨hsp, hcp⟩
    · have hcnd : limitReached (some L) (count + 1) = false := by
        simp [limitReached]; omega
      obtain ⟨out, ho, holen, hoprops⟩ := ih (count + 1) (by omega)
        (fun l hl => hb l (List.mem_cons_of_mem ls hl))
      refine ⟨String.mk slist :: out, ?_, by simp; omega, ?_⟩
      · simp [renderLoop, hs, hcnd, ho]
      · intro s hsm
        rcases List.mem_cons.mp hsm with rfl | hsm2
        · exact ⟨hsp, hcp⟩
        · exact hoprops s hsm2

/-- C7 (amended): the SAT-outcome rendering at the solver's call site
(limit 20) yields at most 20 strings, one character per BDD level
(length = number of variables), over the one/zero/dash alphabet,
provided the levels in the enumerated literals index the word (as the
manager's ordering invariant guarantees). -/
theorem C7_satisfyStrings_output (m : Manager) (root : Node)
    (hlv : ∀ ls ∈ (satisfy m root).1, ∀ lit ∈ ls,
      1 ≤ (nodeVariable lit).level
        ∧ (nodeVariable lit).level ≤ (((satisfy m root).2.vars.length : Nat) : Int)) :
    ∃ out, (satAssignmentOutput m root).1 = some out
      ∧ out.length ≤ 20
      ∧ ∀ s ∈ out, s.length = (satisfy m root).2.vars.length
          ∧ ∀ c ∈ s.data, c = '1' ∨ c = '0' ∨ c = '-' := by
  obtain ⟨out, ho, hl, hp⟩ := renderLoop_props ((satisfy m root).2.vars.length) 20
    (satisfy m root).1 0 (by omega) hlv
  refine ⟨out, ?_, by omega, hp⟩
  unfold satAssignmentOutput satisfyStrings
  exact ho

/-- C7 counterexample: the rendered assignments are over the
one/zero/dash alphabet, not plus/minus/dash: a manager with one variable
and the positive literal as root renders the single assignment "1",
which is not a plus/minus/dash string. -/
theorem C7_counterexample :
    (satAssignmentOutput
        (literal (newVariable (mkManager (mkProver 1 false false) 2 1) none).2
          ⟨1, 1⟩ true).2
        (literal (newVariable (mkManager (mkProver 1 false false) 2 1) none).2
          ⟨1, 1⟩ true).1).1
      = some ["1"]
    ∧ ¬(∀ s ∈ ["1"], ∀ c ∈ s.data, c = '+' ∨ c = '-') := by
  constructor
  · rfl
  · decide

/-- C7 witness: the amended rendering theorem at the same concrete
manager and root. -/
theorem C7_witness :
    ∃ out,
      (satAssignmentOutput
          (literal (newVariable (mkManager (mkProver 1 false false) 2 1) none).2
            ⟨1, 1⟩ true).2
          (literal (newVariable (mkManager (mkProver 1 false false) 2 1) none).2
            ⟨1, 1⟩ true).1).1 = some out
      ∧ out.length ≤ 20
      ∧ ∀ s ∈ out,
          s.length
            = (satisfy
                (literal (newVariable (mkManager (mkProver 1 false false) 2 1) none).2
                  ⟨1, 1⟩ true).2
                (literal (newVariable (mkManager (mkProver 1 false false) 2 1) none).2
                  ⟨1, 1⟩ true).1).2.vars.length
          ∧ ∀ c ∈ s.data, c = '1' ∨ c = '0' ∨ c = '-' :=
  C7_satisfyStrings_output
    (literal (newVariable (mkManager (mkProver 1 false false) 2 1) none).2 ⟨1, 1⟩ true).2
    (literal (newVariable (mkManager (mkProver 1 false false) 2 1) none).2 ⟨1, 1⟩ true).1
    (by decide)

theorem memberId_of_mem {x : Node} {s : List Node} (h : x ∈ s) :
    memberId x s = true := by
  unfold memberId
  rw [List.any_eq_true]
  exact ⟨x, h, by simp⟩

theorem exists_of_memberId {x : Node} {s : List Node}
    (h : memberId x s = true) : ∃ y ∈ s, nodeId y = nodeId x := by
  unfold memberId at h
  rw [List.any_eq_true] at h
  obtain ⟨y, hy, he⟩ := h
  exact ⟨y, hy, by simpa using he⟩

theorem memberId_intro {x y : Node} {s : List Node} (hy : y ∈ s)
    (he : nodeId y = nodeId x) : memberId x s = true := by
  unfold memberId
  rw [List.any_eq_true]
  exact ⟨y, hy, by simpa using he⟩

theorem memberId_of_subset {c : Node} {s t : List Node}
    (hsub : ∀ x ∈ s, x ∈ t) (h : memberId c s = true) :
    memberId c t = true := by
  obtain ⟨y, hy, he⟩ := exists_of_memberId h
  exact memberId_intro (hsub y hy) he

theorem internalChildren_not_leaf (n : Node) :
    ∀ c ∈ internalChildren n, isLeafN c = false := by
  intro c hc
  unfold internalChildren at hc
  rcases List.mem_append.mp hc with h | h
  all_goals split at h
  all_goals simp_all

theorem mem_reachInternal_self (n : Node) (h : isLeafN n = false) :
    n ∈ reachInternal n := by
  cases n
  · simp [isLeafN] at h
  · simp [reachInternal]

theorem reachInternal_child (n : Node) :
    ∀ c ∈ internalChildren n, ∀ x ∈ reachInternal c, x ∈ reachInternal n := by
  intro c hc x hx
  cases n with
  | leaf one => simp [internalChildren, nodeHigh, nodeLow, isLeafN] at hc
  | node i v h l a b c2 d =>
    unfold internalChildren at hc
    simp only [nodeHigh, nodeLow] at hc
    simp only [reachInternal, List.mem_cons, List.mem_append]
    rcases List.mem_append.mp hc with hm | hm
    · split at hm
      · rcases List.mem_singleton.mp hm with rfl
        exact Or.inr (Or.inl hx)
      · simp at hm
    · split at hm
      · rcases List.mem_singleton.mp hm with rfl
        exact Or.inr (Or.inr hx)
      · simp at hm

theorem reachInternal_not_leaf (n : Node) :
    ∀ x ∈ reachInternal n, isLeafN x = false := by
  induction n with
  | leaf one => simp [reachInternal]
  | node i v h l a b c d ihh ihl =>
    intro x hx
    simp only [reachInternal, List.mem_cons, List.mem_append] at hx
    rcases hx with rfl | hx | hx
    · simp [isLeafN]
    · exact ihh x hx
    · exact ihl x hx

theorem reachInternal_trans (n : Node) :
    ∀ y ∈ reachInternal n, ∀ z ∈ reachInternal y, z ∈ reachInternal n := by
  induction n with
  | leaf one => simp [reachInternal]
  | node i v h l a b c d ihh ihl =>
    intro y hy z hz
    simp only [reachInternal, List.mem_cons, List.mem_append] at hy ⊢
    rcases hy with rfl | hy | hy
    · simpa [reachInternal, List.mem_cons, List.mem_append] using hz
    · exact Or.inr (Or.inl (ihh y hy z hz))
    · exact Or.inr (Or.inr (ihl y hy z hz))

/-- Marking soundness: every marked node was already marked or lies in
the reachable closure of the frontier. -/
theorem doMarking_subset (marked frontier : List Node) :
    (∀ n ∈ frontier, isLeafN n = false) →
    ∀ x ∈ doMarking marked frontier,
      x ∈ marked ∨ ∃ r ∈ frontier, x ∈ reachInternal r := by
  induction marked, frontier using doMarking.induct with
  | case1 marked =>
    intro _ x hx
    rw [doMarking] at hx
    exact Or.inl hx
  | case2 marked n rest hmem ih =>
    intro hf x hx
    rw [doMarking, if_pos hmem] at hx
    rcases ih (fun k hk => hf k (List.mem_cons_of_mem n hk)) x hx with h | ⟨r, hr, hxr⟩
    · exact Or.inl h
    · exact Or.inr ⟨r, List.mem_cons_of_mem n hr, hxr⟩
  | case3 marked n rest hmem ih =>
    intro hf x hx
    rw [doMarking, if_neg (by simp [hmem])] at hx
    have hf2 : ∀ k ∈ rest ++ internalChildren n, isLeafN k = false := by
      intro k hk
      rcases List.mem_append.mp hk with hk | hk
      · exact hf k (List.mem_cons_of_mem n hk)
      · exact internalChildren_not_leaf n k hk
    rcases ih hf2 x hx with h | ⟨r, hr, hxr⟩
    · rcases List.mem_append.mp h with h | h
      · exact Or.inl h
      · rcases List.mem_singleton.mp h with rfl
        exact Or.inr ⟨x, List.mem_cons_self x rest,
          mem_reachInternal_self x (hf x (List.mem_cons_self x rest))⟩
    · rcases List.mem_append.mp hr with hr | hr
      · exact Or.inr ⟨r, List.mem_cons_of_mem n hr, hxr⟩
      · exact Or.inr ⟨n, List.mem_cons_self n rest,
          reachInternal_child n r hr x hxr⟩

/-- Marking keeps what was marked. -/
theorem doMarking_mem_marked (marked frontier : List Node) :
    ∀ x ∈ marked, x ∈ doMarking marked frontier := by
  induction marked, frontier using doMarking.induct with
  | case1 marked => intro x hx; rw [doMarking]; exact hx
  | case2 marked n rest hmem ih =>
    intro x hx
    rw [doMarking, if_pos hmem]
    exact ih x hx
  | case3 marked n rest hmem ih =>
    intro x hx
    rw [doMarking, if_neg (by simp [hmem])]
    exact ih x (List.mem_append.mpr (Or.inl hx))

/-- Every frontier node ends up marked (by id). -/
theorem doMarking_mem_frontier (marked frontier : List Node) :
    ∀ x ∈ frontier, memberId x (doMarking marked frontier) = true := by
  induction marked, frontier using doMarking.induct with
  | case1 marked => intro x hx; simp at hx
  | case2 marked n rest hmem ih =>
    intro x hx
    rw [doMarking, if_pos hmem]
    rcases List.mem_cons.mp hx with rfl | hx
    · exact memberId_of_subset (doMarking_mem_marked marked rest) hmem
    · exact ih x hx
  | case3 marked n rest hmem ih =>
    intro x hx
    rw [doMarking, if_neg (by simp [hmem])]
    rcases List.mem_cons.mp hx with rfl | hx
    · exact memberId_of_mem (doMarking_mem_marked _ _ x
        (List.mem_append.mpr (Or.inr (List.mem_singleton.mpr rfl))))
    · exact ih x (List.mem_append.mpr (Or.inl hx))

/-- The marked set is closed under internal children (by id). -/
theorem doMarking_closed (marked frontier : List Node) :
    (∀ m ∈ marked, ∀ c ∈ internalChildren m,
        memberId c marked = true ∨ memberId c frontier = true) →
    ∀ m ∈ doMarking marked frontier, ∀ c ∈ internalChildren m,
      memberId c (doMarking marked frontier) = true := by
  induction marked, frontier using doMarking.induct with
  | case1 marked =>
    intro hGood m hm c hc
    rw [doMarking] at hm ⊢
    rcases hGood m hm c hc with h | h
    · exact h
    · simp [memberId] at h
  | case2 marked n rest hmem ih =>
    intro hGood m hm c hc
    rw [doMarking, if_pos hmem] at hm ⊢
    refine ih ?_ m hm c hc
    intro m2 hm2 c2 hc2
    rcases hGood m2 hm2 c2 hc2 with h | h
    · exact Or.inl h
    · obtain ⟨y, hy, hid⟩ := exists_of_memberId h
      rcases List.mem_cons.mp hy with rfl | hy2
      · obtain ⟨w, hw, hwid⟩ := exists_of_memberId hmem
        exact Or.inl (memberId_intro hw (by rw [hwid, hid]))
      · exact Or.inr (memberId_intro hy2 hid)
  | case3 marked n rest hmem ih =>
    intro hGood m hm c hc
    rw [doMarking, if_neg (by simp [hmem])] at hm ⊢
    refine ih ?_ m hm c hc
    intro m2 hm2 c2 hc2
    rcases List.mem_append.mp hm2 with hm2 | hm2
    · rcases hGood m2 hm2 c2 hc2 with h | h
      · exact Or.inl (memberId_of_subset
          (fun z hz => List.mem_append.mpr (Or.inl hz)) h)
      · obtain ⟨y, hy, hid⟩ := exists_of_memberId h
        rcases List.mem_cons.mp hy with rfl | hy2
        · exact Or.inl (memberId_intro
            (List.mem_append.mpr (Or.inr (List.mem_singleton.mpr rfl))) hid)
        · exact Or.inr (memberId_intro (List.mem_append.mpr (Or.inl hy2)) hid)
    · rcases List.mem_singleton.mp hm2 with rfl
      exact Or.inr (memberId_of_mem (List.mem_append.mpr (Or.inr hc2)))

/-- A set closed under internal children (by id) that contains a node
contains (by id) the node's whole reachable closure, when ids are
injective on the ambient universe. -/
theorem closed_reach (S U : List Node)
    (hClosed : ∀ m ∈ S, ∀ c ∈ internalChildren m, memberId c S = true)
    (hSU : ∀ x ∈ S, x ∈ U)
    (hInj : ∀ x ∈ U, ∀ y ∈ U, nodeId x = nodeId y → x = y)
    (hUreach : ∀ x ∈ U, ∀ y ∈ reachInternal x, y ∈ U) :
    ∀ n, n ∈ U → memberId n S = true →
      ∀ x ∈ reachInternal n, memberId x S = true := by
  intro n
  induction n with
  | leaf one => intro _ _ x hx; simp [reachInternal] at hx
  | node i v h l a b c d ihh ihl =>
    intro hnU hnS x hx
    obtain ⟨n2, hn2S, hid⟩ := exists_of_memberId hnS
    have hn2U := hSU n2 hn2S
    have heq : n2 = Node.node i v h l a b c d := hInj n2 hn2U _ hnU hid
    subst heq
    simp only [reachInternal, List.mem_cons, List.mem_append] at hx
    rcases hx with rfl | hx | hx
    · exact hnS
    · by_cases hlf : isLeafN h = true
      · have := reachInternal_not_leaf h x hx
        cases h
        · simp [reachInternal] at hx
        · simp [isLeafN] at hlf
      · have hchild : h ∈ internalChildren (Node.node i v h l a b c d) := by
          simp [internalChildren, nodeHigh, nodeLow, hlf]
        have hhS : memberId h S = true := hClosed _ hn2S h hchild
        have hhU : h ∈ U := hUreach _ hnU h
          (reachInternal_child _ h hchild h
            (mem_reachInternal_self h (by simpa using hlf)))
        exact ihh hhU hhS x hx
    · by_cases hlf : isLeafN l = true
      · have := reachInternal_not_leaf l x hx
        cases l
        · simp [reachInternal] at hx
        · simp [isLeafN] at hlf
      · have hchild : l ∈ internalChildren (Node.node i v h l a b c d) := by
          simp [internalChildren, nodeHigh, nodeLow, hlf]
        have hlS : memberId l S = true := hClosed _ hn2S l hchild
        have hlU : l ∈ U := hUreach _ hnU l
          (reachInternal_child _ l hchild l
            (mem_reachInternal_self l (by simpa using hlf)))
        exact ihl hlU hlS x hx

/-- The id set marked from a non-leaf frontier is exactly the id set of
the frontier's reachable closure, when ids are injective on that
closure. -/
theorem doMarking_ids (frontier : List Node)
    (hf : ∀ n ∈ frontier, isLeafN n = false)
    (hInj : ∀ x ∈ frontier.flatMap reachInternal,
      ∀ y ∈ frontier.flatMap reachInternal, nodeId x = nodeId y → x = y) :
    ∀ z : Node, memberId z (doMarking [] frontier)
      = memberId z (frontier.flatMap reachInternal) := by
  intro z
  have hSU : ∀ x ∈ doMarking [] frontier, x ∈ frontier.flatMap reachInternal := by
    intro x hx
    rcases doMarking_subset [] frontier hf x hx with h | ⟨r, hr, hxr⟩
    · simp at h
    · exact List.mem_flatMap.mpr ⟨r, hr, hxr⟩
  have hUreach : ∀ x ∈ frontier.flatMap reachInternal,
      ∀ y ∈ reachInternal x, y ∈ frontier.flatMap reachInternal := by
    intro x hx y hy
    obtain ⟨r, hr, hxr⟩ := List.mem_flatMap.mp hx
    exact List.mem_flatMap.mpr ⟨r, hr, reachInternal_trans r x hxr y hy⟩
  have hClosed := doMarking_closed [] frontier (by simp [memberId])
  rcases hm : memberId z (doMarking [] frontier) with hf2 | ht2
  · rcases hu : memberId z (frontier.flatMap reachInternal) with hf3 | ht3
    · rfl
    · exfalso
      obtain ⟨y, hy, hid⟩ := exists_of_memberId hu
      obtain ⟨r, hr, hyr⟩ := List.mem_flatMap.mp hy
      have hrU : r ∈ frontier.flatMap reachInternal :=
        List.mem_flatMap.mpr ⟨r, hr, mem_reachInternal_self r (hf r hr)⟩
      have hrS : memberId r (doMarking [] frontier) = true :=
        doMarking_mem_frontier [] frontier r hr
      have hyS : memberId y (doMarking [] frontier) = true :=
        closed_reach _ _ hClosed hSU hInj hUreach r hrU hrS y hyr
      obtain ⟨w, hw, hwid⟩ := exists_of_memberId hyS
      have : memberId z (doMarking [] frontier) = true :=
        memberId_intro hw (by rw [hwid, hid])
      rw [hm] at this
      exact Bool.false_ne_true this
  · obtain ⟨y, hy, hid⟩ := exists_of_memberId hm
    have hyU := hSU y hy
    exact (memberId_intro hyU hid).symm

/-- `cleanNodes` keeps exactly the marked entries and returns exactly
the concatenated filtered ITE-axiom clause lists of the removed entries,
in table order. -/
theorem cleanNodes_spec (marked : List Node)
    (table : List ((Int × Int × Int) × Node)) :
    (cleanNodes marked table).1
        = (table.filter
            (fun kn => ! memberId kn.2 marked)).flatMap (fun kn => nodeClauseIds kn.2)
      ∧ (cleanNodes marked table).2.1
        = table.filter (fun kn => memberId kn.2 marked) := by
  induction table with
  | nil => exact ⟨rfl, rfl⟩
  | cons kn rest ih =>
    obtain ⟨k, n⟩ := kn
    by_cases hm : memberId n marked = true
    · simp only [cleanNodes, hm, if_pos, List.filter_cons, Bool.not_true]
      constructor
      · simpa using ih.1
      · simpa [hm] using ih.2
    · simp [cleanNodes, hm, ih.1, ih.2]

/-- C2: `collectGarbage` removes from the unique table exactly the
entries whose node is not reachable (by id, along high/low edges) from
the non-leaf roots of the supplied root list plus the root generator's
output; every removed node is internal (the leaves are not table
entries), and the returned deletion list is the cache contribution
followed by, for each removed node in table order, exactly its four
ITE-axiom clause ids with tautology sentinels skipped. -/
theorem C2_collectGarbage_sound (m : Manager) (rootList genRoots : List Node)
    (htab : ∀ kn ∈ m.uniqueTable, isLeafN kn.2 = false)
    (hInj : ∀ x ∈ ((rootList ++ genRoots).filter
        (fun r => ¬ isLeafN r)).flatMap reachInternal,
      ∀ y ∈ ((rootList ++ genRoots).filter
        (fun r => ¬ isLeafN r)).flatMap reachInternal,
      nodeId x = nodeId y → x = y) :
    let reach := ((rootList ++ genRoots).filter
      (fun r => ¬ isLeafN r)).flatMap reachInternal
    ((collectGarbage m rootList genRoots).2.uniqueTable
        = m.uniqueTable.filter (fun kn => memberId kn.2 reach))
    ∧ (∀ kn ∈ m.uniqueTable,
        kn ∉ (collectGarbage m rootList genRoots).2.uniqueTable →
          isLeafN kn.2 = false)
    ∧ (∃ cacheCl, (collectGarbage m rootList genRoots).1
        = cacheCl ++ (m.uniqueTable.filter
            (fun kn => ! memberId kn.2 reach)).flatMap
              (fun kn => nodeClauseIds kn.2)) := by
  intro reach
  have hf : ∀ n ∈ (rootList ++ genRoots).filter (fun r => ¬ isLeafN r),
      isLeafN n = false := by
    intro n hn
    have := (List.mem_filter.mp hn).2
    simpa using this
  have hid := doMarking_ids ((rootList ++ genRoots).filter (fun r => ¬ isLeafN r))
    hf hInj
  have hspec := cleanNodes_spec
    (doMarking [] ((rootList ++ genRoots).filter (fun r => ¬ isLeafN r)))
    m.uniqueTable
  refine ⟨?_, ?_, ?_⟩
  · show (cleanNodes (doMarking [] ((rootList ++ genRoots).filter
        (fun r => ¬ isLeafN r))) m.uniqueTable).2.1 = _
    rw [hspec.2]
    exact List.filter_congr (fun kn _ => hid kn.2)
  · intro kn hkn _
    exact htab kn hkn
  · refine ⟨(cleanCache (doMarking [] ((rootList ++ genRoots).filter
      (fun r => ¬ isLeafN r))) m.operationCache).1, ?_⟩
    show (cleanCache _ m.operationCache).1 ++ (cleanNodes _ m.uniqueTable).1 = _
    rw [hspec.1]
    have heq : List.filter (fun kn => ! memberId kn.2 (doMarking []
          ((rootList ++ genRoots).filter (fun r => ¬ isLeafN r)))) m.uniqueTable
        = List.filter (fun kn => ! memberId kn.2 reach) m.uniqueTable :=
      List.filter_congr (fun kn _ => by rw [hid kn.2])
    rw [heq]

/-- C2 witness: a garbage collection on a two-node manager keeping only
the reachable root, through the theorem. -/
theorem C2_witness :
    let tbl : List ((Int × Int × Int) × Node) :=
      [((1, tautologyId, -tautologyId), Node.node 2 ⟨1, 1⟩ leaf1 leaf0 1 2 3 4),
       ((1, -tautologyId, tautologyId), Node.node 3 ⟨1, 1⟩ leaf0 leaf1 5 6 7 8)]
    let m : Manager := { mkManager (mkProver 1 false false) 4 1 with uniqueTable := tbl }
    let root : Node := Node.node 2 ⟨1, 1⟩ leaf1 leaf0 1 2 3 4
    let reach := (([root] ++ ([] : List Node)).filter
      (fun r => ¬ isLeafN r)).flatMap reachInternal
    ((collectGarbage m [root] []).2.uniqueTable
        = m.uniqueTable.filter (fun kn => memberId kn.2 reach))
    ∧ (∀ kn ∈ m.uniqueTable,
        kn ∉ (collectGarbage m [root] []).2.uniqueTable → isLeafN kn.2 = false)
    ∧ (∃ cacheCl, (collectGarbage m [root] []).1
        = cacheCl ++ (m.uniqueTable.filter
            (fun kn => ! memberId kn.2 reach)).flatMap
              (fun kn => nodeClauseIds kn.2)) :=
  C2_collectGarbage_sound _ [Node.node 2 ⟨1, 1⟩ leaf1 leaf0 1 2 3 4] []
    (by decide) (by decide)

theorem dictFind_eq_none_not_mem {κ β : Type} [DecidableEq κ]
    {l : List (κ × β)} {k : κ} (h : dictFind l k = none) :
    k ∉ l.map Prod.fst := by
  induction l with
  | nil => simp
  | cons kv rest ih =>
    obtain ⟨k2, v2⟩ := kv
    by_cases he : k2 = k
    · rw [dictFind, if_pos he] at h
      exact absurd h (by simp)
    · rw [dictFind, if_neg he] at h
      simp only [List.map_cons, List.mem_cons]
      rintro (rfl | hmem)
      · exact he rfl
      · exact ih h hmem

theorem dictSet_eq_append {κ β : Type} [DecidableEq κ]
    {l : List (κ × β)} {k : κ} (v : β) (h : k ∉ l.map Prod.fst) :
    dictSet l k v = l ++ [(k, v)] := by
  induction l with
  | nil => rfl
  | cons kv rest ih =>
    obtain ⟨k2, v2⟩ := kv
    simp only [List.map_cons, List.mem_cons, not_or] at h
    rw [dictSet, if_neg (fun he => h.1 he.symm), ih h.2]
    rfl

theorem dictFind_dictSet_self {κ β : Type} [DecidableEq κ]
    (l : List (κ × β)) (k : κ) (v : β) :
    dictFind (dictSet l k v) k = some v := by
  induction l with
  | nil => simp [dictSet, dictFind]
  | cons kv rest ih =>
    obtain ⟨k2, v2⟩ := kv
    by_cases he : k2 = k
    · rw [dictSet, if_pos he, dictFind, if_pos rfl]
    · rw [dictSet, if_neg he, dictFind, if_neg he]
      exact ih

theorem dictFind_dictSet_ne {κ β : Type} [DecidableEq κ]
    (l : List (κ × β)) (k k2 : κ) (v : β) (h : k2 ≠ k) :
    dictFind (dictSet l k v) k2 = dictFind l k2 := by
  induction l with
  | nil =>
    simp only [dictSet, dictFind]
    rw [if_neg (fun he => h he.symm)]
  | cons kv rest ih =>
    obtain ⟨k3, v3⟩ := kv
    by_cases he : k3 = k
    · rw [dictSet, if_pos he, dictFind, if_neg (fun hk => h hk.symm), dictFind,
        if_neg (by rw [he]; exact fun hk => h hk.symm)]
    · rw [dictSet, if_neg he, dictFind, dictFind]
      by_cases he2 : k3 = k2
      · rw [if_pos he2, if_pos he2]
      · rw [if_neg he2, if_neg he2, ih]

/-- `findOrMake` keeps the unique-table keys duplicate-free. -/
theorem findOrMake_keysNodup (m : Manager) (v : Variable) (hi lo : Node)
    (h : (m.uniqueTable.map Prod.fst).Nodup) :
    ((findOrMake m v hi lo).2.uniqueTable.map Prod.fst).Nodup := by
  rcases hf : dictFind m.uniqueTable (v.level, nodeId hi, nodeId lo) with _ | n
  · simp only [findOrMake, hf]
    rw [dictSet_eq_append _ (dictFind_eq_none_not_mem hf)]
    rw [List.map_append]
    rw [List.nodup_append]
    exact ⟨h, List.nodup_singleton _,
      by
        intro x hx hx2
        simp only [List.map_cons, List.map_nil, List.mem_singleton] at hx2
        subst hx2
        exact dictFind_eq_none_not_mem hf hx⟩
  · simp only [findOrMake, hf]
    exact h

/-- A second `findOrMake` with the same triple returns the same node and
leaves the manager (its table, its `nextNodeId`, everything) unchanged. -/
theorem findOrMake_second_call (m : Manager) (v : Variable) (hi lo : Node) :
    findOrMake (findOrMake m v hi lo).2 v hi lo
      = ((findOrMake m v hi lo).1, (findOrMake m v hi lo).2) := by
  rcases hf : dictFind m.uniqueTable (v.level, nodeId hi, nodeId lo) with _ | n
  · simp only [findOrMake, hf]
    rw [dictFind_dictSet_self]
  · simp only [findOrMake, hf]

/-- `applyAnd` keeps the unique-table keys duplicate-free. -/
theorem applyAnd_keysNodup (m : Manager) (a b : Node) :
    (m.uniqueTable.map Prod.fst).Nodup →
    (((applyAnd m a b).2.uniqueTable.map Prod.fst)).Nodup := by
  induction m, a, b using applyAnd.induct with
  | case1 m na nb hg0 =>
    intro h
    rw [applyAnd, if_pos hg0]
    exact h
  | case2 m na nb hg0 hg1 =>
    intro h
    rw [applyAnd, if_neg hg0, if_pos hg1]
    exact h
  | case3 m na nb hg0 hg1 hg2 =>
    intro h
    rw [applyAnd, if_neg hg0, if_neg hg1, if_pos hg2]
    exact h
  | case4 m na nb hg0 hg1 hg2 hg3 =>
    intro h
    rw [applyAnd, if_neg hg0, if_neg hg1, if_neg hg2, if_pos hg3]
    exact h
  | case5 m na nb m1 hg0 hg1 hg2 hg3 a2 b2 key v hf =>
    intro h
    rw [applyAnd, if_neg hg0, if_neg hg1, if_neg hg2, if_neg hg3]
    unfold_let m1 a2 b2 key at hf
    simp only [dite_eq_ite] at hf
    simp only [hf]
    exact h
  | case6 m na nb m1 hg0 hg1 hg2 hg3 a2 b2 key hf sv hA lA hB lB nn1 m41 heq1 nn2 m42 heq2 ih1 ih2 =>
    intro h
    rw [applyAnd, if_neg hg0, if_neg hg1, if_neg hg2, if_neg hg3]
    unfold_let m1 a2 b2 key at hf
    have heq1g := heq1
    have heq2g := heq2
    unfold_let m1 a2 b2 key sv hA hB at heq1g
    unfold_let m1 a2 b2 key sv hA lA hB lB at heq2g
    simp only [dite_eq_ite] at hf heq1g heq2g
    simp only [hf, heq1g, heq2g]
    have h1 : (m41.uniqueTable.map Prod.fst).Nodup := by
      have := ih1 h
      rwa [heq1] at this
    have h2 : (m42.uniqueTable.map Prod.fst).Nodup := by
      have := ih2 h1
      rwa [heq2] at this
    split
    · exact h2
    · exact findOrMake_keysNodup m42 _ nn1 nn2 h2

/-- `applyAndJustify` keeps the unique-table keys duplicate-free. -/
theorem applyAndJustify_keysNodup (m : Manager) (a b : Node) :
    (m.uniqueTable.map Prod.fst).Nodup →
    (((applyAndJustify m a b).2.uniqueTable.map Prod.fst)).Nodup := by
  induction m, a, b using applyAndJustify.induct with
  | case1 m na nb hg0 =>
    intro h
    rw [applyAndJustify, if_pos hg0]
    exact h
  | case2 m na nb hg0 hg1 =>
    intro h
    rw [applyAndJustify, if_neg hg0, if_pos hg1]
    exact h
  | case3 m na nb hg0 hg1 hg2 =>
    intro h
    rw [applyAndJustify, if_neg hg0, if_neg hg1, if_pos hg2]
    exact h
  | case4 m na nb hg0 hg1 hg2 hg3 =>
    intro h
    rw [applyAndJustify, if_neg hg0, if_neg hg1, if_neg hg2, if_pos hg3]
    exact h
  | case5 m na nb m1 hg0 hg1 hg2 hg3 a2 b2 key v hf =>
    intro h
    rw [applyAndJustify, if_neg hg0, if_neg hg1, if_neg hg2, if_neg hg3]
    unfold_let m1 a2 b2 key at hf
    simp only [dite_eq_ite] at hf
    simp only [hf]
    exact h
  | case6 m na nb m1 hg0 hg1 hg2 hg3 a2 b2 key hf sv hA lA hB lB nh ah m31 heq1 nl al m32 heq2 ih2 ih1 =>
    intro h
    rw [applyAndJustify, if_neg hg0, if_neg hg1, if_neg hg2, if_neg hg3]
    unfold_let m1 a2 b2 key at hf
    have heq1g := heq1
    have heq2g := heq2
    unfold_let m1 a2 b2 key sv hA hB at heq1g
    unfold_let m1 a2 b2 key sv hA lA hB lB at heq2g
    simp only [dite_eq_ite] at hf heq1g heq2g
    have h1 : (m31.uniqueTable.map Prod.fst).Nodup := by
      have := ih2 h
      rwa [heq1] at this
    have h2 : (m32.uniqueTable.map Prod.fst).Nodup := by
      have := ih1 h1
      rwa [heq2] at this
    rcases hfm : findOrMake m32 sv nh nl with ⟨nn, m4⟩
    have hfmg := hfm
    unfold_let sv a2 b2 at hfmg
    simp only [dite_eq_ite] at hfmg
    simp only [hf, heq1g, heq2g]
    split
    · exact h2
    · simp only [hfmg]
      have := findOrMake_keysNodup m32 sv nh nl h2
      rw [hfm] at this
      exact this

/-- `justifyImply` never touches the unique table, so it keeps the keys
duplicate-free. -/
theorem justifyImply_keysNodup (m : Manager) (a b : Node) :
    (m.uniqueTable.map Prod.fst).Nodup →
    (((justifyImply m a b).2.uniqueTable.map Prod.fst)).Nodup := by
  induction m, a, b using justifyImply.induct with
  | case1 m na nb hg0 =>
    intro h
    rw [justifyImply, if_pos hg0]
    exact h
  | case2 m na nb hg0 hg1 =>
    intro h
    rw [justifyImply, if_neg hg0, if_pos hg1]
    exact h
  | case3 m na nb hg0 hg1 hg2 =>
    intro h
    rw [justifyImply, if_neg hg0, if_neg hg1, if_pos hg2]
    exact h
  | case4 m na nb hg0 hg1 hg2 hg3 =>
    intro h
    rw [justifyImply, if_neg hg0, if_neg hg1, if_neg hg2, if_pos hg3]
    exact h
  | case5 m na nb hg0 hg1 hg2 hg3 hg4 =>
    intro h
    rw [justifyImply, if_neg hg0, if_neg hg1, if_neg hg2, if_neg hg3, if_pos hg4]
    exact h
  | case6 m na nb m1 hg0 hg1 hg2 hg3 hg4 key v hf =>
    intro h
    rw [justifyImply, if_neg hg0, if_neg hg1, if_neg hg2, if_neg hg3, if_neg hg4]
    unfold_let m1 key at hf
    simp only [hf]
    exact h
  | case7 m na nb m1 hg0 hg1 hg2 hg3 hg4 key hf sv hA lA hB lB ch ih m31 heq1 cl il m32 heq2 ih2 ih1 =>
    intro h
    rw [justifyImply, if_neg hg0, if_neg hg1, if_neg hg2, if_neg hg3, if_neg hg4]
    unfold_let m1 key at hf
    have heq1g := heq1
    have heq2g := heq2
    unfold_let m1 key sv hA hB at heq1g
    unfold_let m1 key sv hA lA hB lB at heq2g
    simp only [hf, heq1g, heq2g]
    have h1 : (m31.uniqueTable.map Prod.fst).Nodup := by
      have := ih2 h
      rwa [heq1] at this
    have h2 : (m32.uniqueTable.map Prod.fst).Nodup := by
      have := ih1 h1
      rwa [heq2] at this
    exact h2

/-- `newVariable` leaves the unique table unchanged. -/
theorem newVariable_table (m : Manager) (vid : Option Int) :
    (newVariable m vid).2.uniqueTable = m.uniqueTable := rfl

/-- `literal` keeps the unique-table keys duplicate-free. -/
theorem literal_keysNodup (m : Manager) (v : Variable) (phase : Bool)
    (h : (m.uniqueTable.map Prod.fst).Nodup) :
    ((literal m v phase).2.uniqueTable.map Prod.fst).Nodup := by
  unfold literal
  split
  · exact findOrMake_keysNodup m v leaf1 leaf0 h
  · exact findOrMake_keysNodup m v leaf0 leaf1 h

set_option maxHeartbeats 2000000 in
/-- `satisfy` keeps the unique-table keys duplicate-free. -/
theorem satisfy_keysNodup (m : Manager) (n : Node) :
    (m.uniqueTable.map Prod.fst).Nodup →
    ((satisfy m n).2.uniqueTable.map Prod.fst).Nodup := by
  induction n generalizing m with
  | leaf one =>
    intro h
    simp only [satisfy]
    exact h
  | node i v hN lN a b c d ihh ihl =>
    intro h
    rcases h1 : satisfy m hN with ⟨hl1, m1⟩
    rcases h2 : literal m1 v true with ⟨lit1, m2⟩
    rcases h3 : satisfy m2 lN with ⟨ll1, m3⟩
    rcases h4 : literal m3 v false with ⟨lit2, m4⟩
    have n1 : (m1.uniqueTable.map Prod.fst).Nodup := by
      have := ihh m h
      rwa [h1] at this
    have n2 : (m2.uniqueTable.map Prod.fst).Nodup := by
      have := literal_keysNodup m1 v true n1
      rwa [h2] at this
    have n3 : (m3.uniqueTable.map Prod.fst).Nodup := by
      have := ihl m2 n2
      rwa [h3] at this
    have n4 : (m4.uniqueTable.map Prod.fst).Nodup := by
      have := literal_keysNodup m3 v false n3
      rwa [h4] at this
    simp only [satisfy, h1, h2, h3, h4]
    exact n4

/-- `satisfyStrings` ends in the manager `satisfy` produced. -/
theorem satisfyStrings_table (m : Manager) (n : Node) (lim : Option Nat) :
    (satisfyStrings m n lim).2 = (satisfy m n).2 := by
  rcases h : satisfy m n with ⟨s, m1⟩
  simp only [satisfyStrings, h]

/-- `collectGarbage` keeps the unique-table keys duplicate-free: the
surviving table is a filter of the old one. -/
theorem collectGarbage_keysNodup (m : Manager) (roots gen : List Node)
    (h : (m.uniqueTable.map Prod.fst).Nodup) :
    ((collectGarbage m roots gen).2.uniqueTable.map Prod.fst).Nodup := by
  show (((cleanNodes (doMarking []
      ((roots ++ gen).filter (fun r => ¬ isLeafN r))) m.uniqueTable).2.1).map
        Prod.fst).Nodup
  rw [(cleanNodes_spec _ m.uniqueTable).2]
  exact List.Nodup.sublist
    (List.Sublist.map Prod.fst (List.filter_sublist m.uniqueTable)) h

/-- `Term.combine` ends with a prover update of the `applyAndJustify`
result manager, whose unique table it keeps. -/
theorem combine_table (m : Manager) (t u : Term) :
    (combine m t u).2.uniqueTable
      = (applyAndJustify m t.root u.root).2.uniqueTable := rfl

/-- Any single embedded operation keeps the unique-table keys
duplicate-free. -/
theorem step_keysNodup {m1 m2 : Manager} (hs : Step m1 m2)
    (h : (m1.uniqueTable.map Prod.fst).Nodup) :
    (m2.uniqueTable.map Prod.fst).Nodup := by
  cases hs with
  | newVar vid =>
    rw [newVariable_table]
    exact h
  | findOrMakeOp v hi lo => exact findOrMake_keysNodup m1 v hi lo h
  | literalOp v ph => exact literal_keysNodup m1 v ph h
  | applyAndJustifyOp a b => exact applyAndJustify_keysNodup m1 a b h
  | applyAndOp a b => exact applyAnd_keysNodup m1 a b h
  | justifyImplyOp a b => exact justifyImply_keysNodup m1 a b h
  | satisfyOp n => exact satisfy_keysNodup m1 n h
  | satisfyStringsOp n lim =>
    rw [satisfyStrings_table]
    exact satisfy_keysNodup m1 n h
  | collectGarbageOp roots gen => exact collectGarbage_keysNodup m1 roots gen h
  | combineOp t u =>
    rw [combine_table]
    exact applyAndJustify_keysNodup m1 t.root u.root h
  | proverOp p => exact h

/-- Every reachable manager has duplicate-free unique-table keys. -/
theorem reachable_keysNodup (m : Manager) (h : Reachable m) :
    (m.uniqueTable.map Prod.fst).Nodup := by
  obtain ⟨p, nid, v, hrt⟩ := h
  induction hrt with
  | refl => simp [mkManager]
  | tail hsteps hstep ih => exact step_keysNodup hstep ih

/-- In a duplicate-free association list a key determines its value. -/
theorem keysNodup_unique {α β : Type} (k : α) (a b : β) :
    ∀ l : List (α × β), (l.map Prod.fst).Nodup →
      (k, a) ∈ l → (k, b) ∈ l → a = b := by
  intro l
  induction l with
  | nil =>
    intro _ ha
    cases ha
  | cons kv rest ih =>
    intro h ha hb
    rw [List.map_cons, List.nodup_cons] at h
    rcases List.mem_cons.mp ha with h1 | h1
    · rcases List.mem_cons.mp hb with h2 | h2
      · rw [← h1] at h2
        injection h2 with _ h3
        exact h3.symm
      · exfalso
        apply h.1
        rw [← h1]
        exact List.mem_map.mpr ⟨(k, b), h2, rfl⟩
    · rcases List.mem_cons.mp hb with h2 | h2
      · exfalso
        apply h.1
        rw [← h2]
        exact List.mem_map.mpr ⟨(k, a), h1, rfl⟩
      · exact ih h.2 h1 h2

/-- C1: hash-consing canonicity.  In every manager reachable by the
embedded operations the unique table holds at most one node keyed
`(var.level, high.id, low.id)` for each triple; and a second `findOrMake`
with the same triple returns the node of the first, adds no table entry,
and leaves `nextNodeId` where it was. -/
theorem C1_hash_consing (m : Manager) (h : Reachable m)
    (v : Variable) (hi lo : Node) :
    (∀ n1 n2 : Node,
        ((v.level, nodeId hi, nodeId lo), n1) ∈ m.uniqueTable →
        ((v.level, nodeId hi, nodeId lo), n2) ∈ m.uniqueTable → n1 = n2)
    ∧ (findOrMake (findOrMake m v hi lo).2 v hi lo).1
        = (findOrMake m v hi lo).1
    ∧ (findOrMake (findOrMake m v hi lo).2 v hi lo).2.uniqueTable.length
        = (findOrMake m v hi lo).2.uniqueTable.length
    ∧ (findOrMake (findOrMake m v hi lo).2 v hi lo).2.nextNodeId
        = (findOrMake m v hi lo).2.nextNodeId := by
  refine ⟨?_, ?_, ?_, ?_⟩
  · intro n1 n2 h1 h2
    exact keysNodup_unique _ n1 n2 m.uniqueTable (reachable_keysNodup m h) h1 h2
  · rw [findOrMake_second_call]
  · rw [findOrMake_second_call]
  · rw [findOrMake_second_call]

/-- Witness for C1 at a freshly constructed manager. -/
theorem C1_witness :
    Reachable (mkManager (mkProver 0 false false) 2 0)
    ∧ ((∀ n1 n2 : Node,
          (((⟨1, 1⟩ : Variable).level, nodeId leaf1, nodeId leaf0), n1)
              ∈ (mkManager (mkProver 0 false false) 2 0).uniqueTable →
          (((⟨1, 1⟩ : Variable).level, nodeId leaf1, nodeId leaf0), n2)
              ∈ (mkManager (mkProver 0 false false) 2 0).uniqueTable → n1 = n2)
       ∧ (findOrMake (findOrMake (mkManager (mkProver 0 false false) 2 0)
              ⟨1, 1⟩ leaf1 leaf0).2 ⟨1, 1⟩ leaf1 leaf0).1
           = (findOrMake (mkManager (mkProver 0 false false) 2 0)
              ⟨1, 1⟩ leaf1 leaf0).1
       ∧ (findOrMake (findOrMake (mkManager (mkProver 0 false false) 2 0)
              ⟨1, 1⟩ leaf1 leaf0).2 ⟨1, 1⟩ leaf1 leaf0).2.uniqueTable.length
           = (findOrMake (mkManager (mkProver 0 false false) 2 0)
              ⟨1, 1⟩ leaf1 leaf0).2.uniqueTable.length
       ∧ (findOrMake (findOrMake (mkManager (mkProver 0 false false) 2 0)
              ⟨1, 1⟩ leaf1 leaf0).2 ⟨1, 1⟩ leaf1 leaf0).2.nextNodeId
           = (findOrMake (mkManager (mkProver 0 false false) 2 0)
              ⟨1, 1⟩ leaf1 leaf0).2.nextNodeId) :=
  ⟨⟨mkProver 0 false false, 2, 0, Relation.ReflTransGen.refl⟩,
   C1_hash_consing (mkManager (mkProver 0 false false) 2 0)
     ⟨mkProver 0 false false, 2, 0, Relation.ReflTransGen.refl⟩
     ⟨1, 1⟩ leaf1 leaf0⟩

/-- Zeroing the inference fields keeps a node's id. -/
theorem nodeId_eraseInfer (n : Node) : nodeId (eraseInfer n) = nodeId n := by
  cases n
  · rfl
  · rfl

/-- `dictFind` after erasing inference fields from every entry. -/
theorem dictFind_map_eraseEntry (l : List ((Int × Int × Int) × Node))
    (k : Int × Int × Int) :
    dictFind (l.map eraseEntry) k = Option.map eraseInfer (dictFind l k) := by
  induction l with
  | nil => rfl
  | cons kn rest ih =>
    obtain ⟨k2, n⟩ := kn
    by_cases h : k2 = k
    · simp [dictFind, eraseEntry, h]
    · simp [dictFind, eraseEntry, h, ih]

/-- `dictSet` commutes with erasing inference fields from every
entry. -/
theorem map_eraseEntry_dictSet (l : List ((Int × Int × Int) × Node))
    (k : Int × Int × Int) (n : Node) :
    (dictSet l k n).map eraseEntry = dictSet (l.map eraseEntry) k (eraseInfer n) := by
  induction l with
  | nil => rfl
  | cons kn rest ih =>
    obtain ⟨k2, n2⟩ := kn
    by_cases h : k2 = k
    · simp [dictSet, eraseEntry, h]
    · simp [dictSet, eraseEntry, h, ih]

/-- A missing `"and"` entry corresponds only to a missing `"andnj"`
entry. -/
theorem cacheEntryRel_none_left {o : Option CacheVal}
    (h : CacheEntryRel none o) : o = none := by
  cases o with
  | none => rfl
  | some v =>
    rcases v with ⟨r, j, cl⟩ | n
    · rcases r with n | c
      · simp [CacheEntryRel] at h
      · simp [CacheEntryRel] at h
    · simp [CacheEntryRel] at h

/-- A present `"and"` entry corresponds to a present `"andnj"` entry of
the bare-node shape, with inference-erased-equal nodes. -/
theorem cacheEntryRel_some_left {v : CacheVal} {o : Option CacheVal}
    (h : CacheEntryRel (some v) o) :
    ∃ n j cl n2, v = .tup (Sum.inl n) j cl ∧ o = some (.bare n2)
      ∧ eraseInfer n = eraseInfer n2 := by
  rcases v with ⟨r, j, cl⟩ | n
  · rcases r with n | c
    · cases o with
      | none => simp [CacheEntryRel] at h
      | some v2 =>
        rcases v2 with ⟨r2, j2, cl2⟩ | n2
        · rcases r2 with n2 | c2
          · simp [CacheEntryRel] at h
          · simp [CacheEntryRel] at h
        · exact ⟨n, j, cl, n2, rfl, rfl, h⟩
    · cases o with
      | none => simp [CacheEntryRel] at h
      | some v2 =>
        rcases v2 with ⟨r2, j2, cl2⟩ | n2
        · rcases r2 with n2 | c2
          · simp [CacheEntryRel] at h
          · simp [CacheEntryRel] at h
        · simp [CacheEntryRel] at h
  · cases o with
    | none => simp [CacheEntryRel] at h
    | some v2 =>
      rcases v2 with ⟨r2, j2, cl2⟩ | n2
      · rcases r2 with n2 | c2
        · simp [CacheEntryRel] at h
        · simp [CacheEntryRel] at h
      · simp [CacheEntryRel] at h

/-- Storing the freshly computed conjunction in both caches preserves
the cache correspondence. -/
theorem cacheEntryRel_store (c c2 : List (CKey × CacheVal)) (ids : List Int)
    (n n2 : Node) (j : Int) (cl : List Int)
    (h : ∀ ids2 : List Int,
      CacheEntryRel (dictFind c ("and", ids2)) (dictFind c2 ("andnj", ids2)))
    (hn : eraseInfer n = eraseInfer n2) :
    ∀ ids2 : List Int,
      CacheEntryRel
        (dictFind (dictSet c ("and", ids) (.tup (Sum.inl n) j cl)) ("and", ids2))
        (dictFind (dictSet c2 ("andnj", ids) (.bare n2)) ("andnj", ids2)) := by
  intro ids2
  by_cases he : ids2 = ids
  · subst he
    rw [dictFind_dictSet_self, dictFind_dictSet_self]
    exact hn
  · rw [dictFind_dictSet_ne _ _ _ _
        (by intro hc; injection hc with hc1 hc2; exact he hc2),
      dictFind_dictSet_ne _ _ _ _
        (by intro hc; injection hc with hc1 hc2; exact he hc2)]
    exact h ids2

/-- The shape of `findOrMake` on a unique-table miss: a fresh node
carrying the next id, the key bound to it, and the id counter
advanced. -/
theorem findOrMake_miss (m : Manager) (v : Variable) (hi lo : Node)
    (hf : dictFind m.uniqueTable (v.level, nodeId hi, nodeId lo) = none) :
    ∃ tU fU tD fD p4,
      findOrMake m v hi lo
        = (Node.node m.nextNodeId v hi lo tU fU tD fD,
           { m with
             prover := p4,
             nextNodeId := m.nextNodeId + 1,
             uniqueTable := dictSet m.uniqueTable (v.level, nodeId hi, nodeId lo)
               (Node.node m.nextNodeId v hi lo tU fU tD fD),
             nodeCount := m.nodeCount + 1,
             maxLiveCount := max m.maxLiveCount
               ((dictSet m.uniqueTable (v.level, nodeId hi, nodeId lo)
                 (Node.node m.nextNodeId v hi lo tU fU tD fD)).length : Int) }) := by
  simp only [findOrMake, hf]
  exact ⟨_, _, _, _, _, rfl⟩

/-- `findOrMake` in lockstep: inference-erased-equal children under the
same variable produce inference-erased-equal results and preserve the
lockstep relation. -/
theorem findOrMake_sim (s t : Manager) (v : Variable) (nh nl nh2 nl2 : Node)
    (hr : AndSim s t) (hh : eraseInfer nh = eraseInfer nh2)
    (hl : eraseInfer nl = eraseInfer nl2) :
    eraseInfer (findOrMake s v nh nl).1 = eraseInfer (findOrMake t v nh2 nl2).1
    ∧ AndSim (findOrMake s v nh nl).2 (findOrMake t v nh2 nl2).2 := by
  obtain ⟨h1, h2, h3⟩ := hr
  have hidh : nodeId nh2 = nodeId nh := by
    rw [← nodeId_eraseInfer nh2, ← hh, nodeId_eraseInfer]
  have hidl : nodeId nl2 = nodeId nl := by
    rw [← nodeId_eraseInfer nl2, ← hl, nodeId_eraseInfer]
  have hfind : Option.map eraseInfer (dictFind s.uniqueTable (v.level, nodeId nh, nodeId nl))
      = Option.map eraseInfer (dictFind t.uniqueTable (v.level, nodeId nh, nodeId nl)) := by
    rw [← dictFind_map_eraseEntry, ← dictFind_map_eraseEntry, h2]
  rcases hfs : dictFind s.uniqueTable (v.level, nodeId nh, nodeId nl) with _ | n
  · rcases hft : dictFind t.uniqueTable (v.level, nodeId nh, nodeId nl) with _ | n2
    · obtain ⟨tU, fU, tD, fD, p4, hS⟩ := findOrMake_miss s v nh nl hfs
      obtain ⟨tU2, fU2, tD2, fD2, p5, hT⟩ := findOrMake_miss t v nh2 nl2
        (by rw [hidh, hidl]; exact hft)
      have hnode : eraseInfer (Node.node s.nextNodeId v nh nl tU fU tD fD)
          = eraseInfer (Node.node t.nextNodeId v nh2 nl2 tU2 fU2 tD2 fD2) := by
        simp only [eraseInfer]
        rw [h1, hh, hl]
      rw [hS, hT]
      refine ⟨hnode, ?_, ?_, ?_⟩
      · show s.nextNodeId + 1 = t.nextNodeId + 1
        rw [h1]
      · show (dictSet s.uniqueTable (v.level, nodeId nh, nodeId nl) _).map eraseEntry
          = (dictSet t.uniqueTable (v.level, nodeId nh2, nodeId nl2) _).map eraseEntry
        rw [hidh, hidl, map_eraseEntry_dictSet, map_eraseEntry_dictSet, h2, hnode]
      · exact h3
    · rw [hfs, hft] at hfind
      simp at hfind
  · rcases hft : dictFind t.uniqueTable (v.level, nodeId nh, nodeId nl) with _ | n2
    · rw [hfs, hft] at hfind
      simp at hfind
    · rw [hfs, hft] at hfind
      simp only [Option.map] at hfind
      injection hfind with hfind2
      simp only [findOrMake]
      rw [hidh, hidl]
      simp only [hfs, hft]
      exact ⟨hfind2, h1, h2, h3⟩

set_option maxHeartbeats 4000000 in
/-- The lockstep simulation: from related managers, `applyAndJustify`
and `applyAnd` on the same two nodes return inference-erased-equal nodes
and related managers. -/
theorem applyAnd_sim (s : Manager) (a b : Node) :
    ∀ t : Manager, AndSim s t →
      eraseInfer (applyAndJustify s a b).1.1 = eraseInfer (applyAnd t a b).1
      ∧ AndSim (applyAndJustify s a b).2 (applyAnd t a b).2 := by
  induction s, a, b using applyAndJustify.induct with
  | case1 m na nb hg0 =>
    intro t hr
    rw [applyAndJustify, if_pos hg0, applyAnd, if_pos hg0]
    exact ⟨rfl, hr⟩
  | case2 m na nb hg0 hg1 =>
    intro t hr
    rw [applyAndJustify, if_neg hg0, if_pos hg1, applyAnd, if_neg hg0, if_pos hg1]
    exact ⟨rfl, hr⟩
  | case3 m na nb hg0 hg1 hg2 =>
    intro t hr
    rw [applyAndJustify, if_neg hg0, if_neg hg1, if_pos hg2,
      applyAnd, if_neg hg0, if_neg hg1, if_pos hg2]
    exact ⟨rfl, hr⟩
  | case4 m na nb hg0 hg1 hg2 hg3 =>
    intro t hr
    rw [applyAndJustify, if_neg hg0, if_neg hg1, if_neg hg2, if_pos hg3,
      applyAnd, if_neg hg0, if_neg hg1, if_neg hg2, if_pos hg3]
    exact ⟨rfl, hr⟩
  | case5 m na nb m1 hg0 hg1 hg2 hg3 a2 b2 key v hf =>
    intro t hr
    rw [applyAndJustify, if_neg hg0, if_neg hg1, if_neg hg2, if_neg hg3,
      applyAnd, if_neg hg0, if_neg hg1, if_neg hg2, if_neg hg3]
    have hf2 : dictFind m.operationCache
        ("and", [nodeId (if nodeId na > nodeId nb then nb else na),
                 nodeId (if nodeId na > nodeId nb then na else nb)]) = some v := hf
    have hrel := hr.2.2 [nodeId (if nodeId na > nodeId nb then nb else na),
                         nodeId (if nodeId na > nodeId nb then na else nb)]
    rw [hf2] at hrel
    obtain ⟨n, j, cl, n2, hv, ho, hnn⟩ := cacheEntryRel_some_left hrel
    have hft : dictFind ({ t with applyCount := t.applyCount + 1 } : Manager).operationCache
        (("andnj", [nodeId (if nodeId na > nodeId nb then nb else na),
                    nodeId (if nodeId na > nodeId nb then na else nb)]) : CKey)
        = some (.bare n2) := ho
    have hfg := hf
    unfold_let m1 a2 b2 key at hfg
    simp only [dite_eq_ite] at hfg
    simp only [hfg, hft, hv, cacheHitPair, cacheNodeOf]
    exact ⟨hnn, hr⟩
  | case6 m na nb m1 hg0 hg1 hg2 hg3 a2 b2 key hf sv hA lA hB lB nh ah m31 heq1 nl al m32 heq2 ih2 ih1 =>
    intro t hr
    rw [applyAndJustify, if_neg hg0, if_neg hg1, if_neg hg2, if_neg hg3,
      applyAnd, if_neg hg0, if_neg hg1, if_neg hg2, if_neg hg3]
    have hf2 : dictFind m.operationCache
        ("and", [nodeId (if nodeId na > nodeId nb then nb else na),
                 nodeId (if nodeId na > nodeId nb then na else nb)]) = none := hf
    have hrel := hr.2.2 [nodeId (if nodeId na > nodeId nb then nb else na),
                         nodeId (if nodeId na > nodeId nb then na else nb)]
    rw [hf2] at hrel
    have hft : dictFind ({ t with applyCount := t.applyCount + 1 } : Manager).operationCache
        (("andnj", [nodeId (if nodeId na > nodeId nb then nb else na),
                    nodeId (if nodeId na > nodeId nb then na else nb)]) : CKey) = none :=
      cacheEntryRel_none_left hrel
    rcases ht1 : applyAnd ({ t with applyCount := t.applyCount + 1 } : Manager) hA hB
      with ⟨nh2, t2⟩
    have hsim1 := ih2 ({ t with applyCount := t.applyCount + 1 } : Manager) hr
    simp only [heq1, ht1] at hsim1
    rcases ht2 : applyAnd t2 lA lB with ⟨nl2, t3⟩
    have hsim2 := ih1 t2 hsim1.2
    simp only [heq2, ht2] at hsim2
    have hfg := hf
    unfold_let m1 a2 b2 key at hfg
    simp only [dite_eq_ite] at hfg
    have heq1g := heq1
    have heq2g := heq2
    unfold_let m1 a2 b2 key sv hA hB at heq1g
    unfold_let m1 a2 b2 key sv hA lA hB lB at heq2g
    simp only [dite_eq_ite] at heq1g heq2g
    have ht1g := ht1
    have ht2g := ht2
    unfold_let a2 b2 sv hA hB at ht1g
    unfold_let a2 b2 sv lA lB at ht2g
    simp only [dite_eq_ite] at ht1g ht2g
    simp only [hfg, hft, heq1g, heq2g, ht1g, ht2g]
    have hidh : nodeId nh2 = nodeId nh := by
      rw [← nodeId_eraseInfer nh2, ← hsim1.1, nodeId_eraseInfer]
    have hidl : nodeId nl2 = nodeId nl := by
      rw [← nodeId_eraseInfer nl2, ← hsim2.1, nodeId_eraseInfer]
    rw [hidh, hidl]
    by_cases hres : nodeId nh = nodeId nl
    · simp only [if_pos hres]
      refine ⟨hsim1.1, hsim2.2.1, hsim2.2.2.1, ?_⟩
      exact cacheEntryRel_store _ _ _ _ _ _ _ hsim2.2.2.2 hsim1.1
    · simp only [if_neg hres]
      have hsim3 := findOrMake_sim m32 t3 sv nh nl nh2 nl2 hsim2.2 hsim1.1 hsim2.1
      rcases hfm : findOrMake m32 sv nh nl with ⟨nn, m4⟩
      rcases hfm2 : findOrMake t3 sv nh2 nl2 with ⟨nn2, t4⟩
      simp only [hfm, hfm2] at hsim3
      have hfmg := hfm
      have hfm2g := hfm2
      unfold_let a2 b2 sv at hfmg hfm2g
      simp only [dite_eq_ite] at hfmg hfm2g
      simp only [hfmg, hfm2g]
      refine ⟨hsim3.1, hsim3.2.1, hsim3.2.2.1, ?_⟩
      exact cacheEntryRel_store _ _ _ _ _ _ _ hsim3.2.2.2 hsim3.1

/-- C10: on a manager whose operation cache holds no conjunction entry
(no `"and"` and no `"andnj"` key), the proof-free `applyAnd` returns
exactly the node (by id, the reference's node equality) that
`applyAndJustify` returns as the first component of its pair. -/
theorem C10_applyAnd_agrees (m : Manager) (a b : Node)
    (h : ∀ ids : List Int,
      dictFind m.operationCache ("and", ids) = none
      ∧ dictFind m.operationCache ("andnj", ids) = none) :
    nodeId (applyAndJustify m a b).1.1 = nodeId (applyAnd m a b).1 := by
  have hsim : AndSim m m := by
    refine ⟨rfl, rfl, fun ids => ?_⟩
    rw [(h ids).1, (h ids).2]
    trivial
  have hs := applyAnd_sim m a b m hsim
  rw [← nodeId_eraseInfer ((applyAndJustify m a b).1.1), hs.1, nodeId_eraseInfer]

/-- Witness for C10: a fresh manager has an empty operation cache, and
the two conjunctions of the leaves agree there. -/
theorem C10_witness :
    (∀ ids : List Int,
      dictFind (mkManager (mkProver 0 false false) 2 1).operationCache
          ("and", ids) = none
      ∧ dictFind (mkManager (mkProver 0 false false) 2 1).operationCache
          ("andnj", ids) = none)
    ∧ nodeId (applyAndJustify (mkManager (mkProver 0 false false) 2 1) leaf1 leaf0).1.1
        = nodeId (applyAnd (mkManager (mkProver 0 false false) 2 1) leaf1 leaf0).1 :=
  ⟨fun ids => ⟨rfl, rfl⟩,
   C10_applyAnd_agrees (mkManager (mkProver 0 false false) 2 1) leaf1 leaf0
     (fun ids => ⟨rfl, rfl⟩)⟩

/-- C9: the decoder is not a left inverse of the encoder on negative
values.  Encoding `-1` gives the zigzag value `3` (byte `3`); decoding
computes `-u//2`, which Python parses as `(-u)//2 = (-3)//2 = -2` (floor
division), not `-(u//2) = -1`.  So `CompressArray([-1]).toList()` is
`[-2]`, refuting the round-trip claim at the input `[-1]`. -/
theorem C9_compress_toList_not_leftInverse :
    toListBytes (compressBytes [-1]) = [-2] ∧ [-2] ≠ ([-1] : List Int) := by
  have h1 : zigzag (-1) = 3 := by norm_num [zigzag]; rfl
  have h2 : encodeNat 3 = [3] := by rw [encodeNat]; norm_num
  refine ⟨?_, by decide⟩
  simp [compressBytes, h1, h2, toListBytes, decodeAux, decodeOne]

/-- Decoding the byte groups of one encoded value prepends the decoded
value of the accumulated total and continues with the remaining bytes. -/
theorem decodeAux_encodeNat (u : Nat) (rest : List Nat) (w acc : Nat) :
    decodeAux (encodeNat u ++ rest) w acc
      = decodeOne (acc + u * 2 ^ w) :: decodeAux rest 0 0 := by
  by_cases h : u ≥ 128
  · rw [encodeNat]
    simp only [h, if_pos, List.cons_append, decodeAux]
    have hb : ¬ (u % 128 + 128 < 128) := by omega
    simp only [hb, if_neg, not_false_iff]
    rw [decodeAux_encodeNat (u / 128) rest (w + 7) (acc + (u % 128 + 128) % 128 * 2 ^ w)]
    congr 2
    have hm : (u % 128 + 128) % 128 = u % 128 := by omega
    rw [hm]
    calc acc + u % 128 * 2 ^ w + u / 128 * 2 ^ (w + 7)
        = acc + (u % 128 + 128 * (u / 128)) * 2 ^ w := by rw [pow_add]; ring
      _ = acc + u * 2 ^ w := by rw [Nat.mod_add_div]
  · rw [encodeNat]
    simp only [h, if_neg, not_false_iff, List.cons_append, decodeAux]
    have hb : u < 128 := by omega
    simp only [hb, if_pos]
    rw [Nat.mod_eq_of_lt hb, List.nil_append]
termination_by u
decreasing_by exact Nat.div_lt_self (by omega) (by omega)

/-- The decoder does invert the encoder on non-negative values: for every
list of non-negative integers the round trip is the identity.  This
supports reading the failure on negatives as a slip rather than a design
choice. -/
theorem toList_compress_of_nonneg (xs : List Int) (h : ∀ x ∈ xs, 0 ≤ x) :
    toListBytes (compressBytes xs) = xs := by
  induction xs with
  | nil => rfl
  | cons x xs ih =>
    have hx : 0 ≤ x := h x (List.mem_cons_self x xs)
    have hxs : ∀ y ∈ xs, 0 ≤ y := fun y hy => h y (List.mem_cons_of_mem x hy)
    have hz : zigzag x = (2 * x).toNat := by simp [zigzag, hx]
    unfold toListBytes compressBytes at *
    rw [List.flatMap_cons, decodeAux_encodeNat]
    rw [ih hxs]
    congr 1
    rw [hz]
    have h2 : ((2 * x).toNat : Int) = 2 * x := Int.toNat_of_nonneg (by omega)
    simp only [decodeOne, Nat.zero_add, pow_zero, Nat.mul_one, Nat.add_zero, zero_add, mul_one]
    have hmod : (2 * x).toNat % 2 = 0 := by omega
    rw [if_pos hmod]
    omega

end PGBDD
